import Mathlib

/-!
# Sharded vote ledger: packet codec, blocks, chains and shard routing

A shallow embedding of the C++ sources

* `src/core/SecurePacket.cpp`, `include/core/SecurePacket.h`
* `cpp/include/crypto/CryptoUtils.h`
* `src/core/Block.cpp`, `cpp/include/core/Block.h`
* `src/core/Blockchain.cpp`, `include/core/Blockchain.h`
* `cpp/src/network/ShardController.cpp`, `include/network/ShardController.h`
* `cpp/src/client/VoterClient.cpp` and the loop over the votes in `src/main.cpp`

Conventions.  A C++ `char` is a Lean `Char` and a `std::string` is a `List Char`.
Everything the code reads from its surroundings is an explicit argument:
`hasher` stands for `std::hash<std::string>`, `rand` for the values returned by
`rand()`, `now` for the value returned by `std::time`, and a `Disk` for the shard
files.  A call that throws, that has no defined behaviour in C++, or whose loop
is still running when the fuel is spent, returns `Except.error` with the
matching `Fault`.
-/

namespace VoteLedger

/-! ## Definitions -/

/-- A `std::string`. -/
abbrev Str := List Char

/-- Ways in which a call can fail to produce a result. -/
inductive Fault where
  /-- `std::runtime_error` thrown by the `SecurePacket` constructor. -/
  | runtime_error
  /-- `std::length_error` thrown by `std::string(count, ch)` for a negative `int` count. -/
  | length_error
  /-- The C++ has no defined behaviour here (read past an array or a stream,
  use of an indeterminate value, division by zero, signed overflow). -/
  | undefined
  /-- The mining loop had not finished when the fuel ran out. -/
  | out_of_fuel
  deriving DecidableEq, Repr

deriving instance DecidableEq for Except

/-- The delimiter byte written after the payload. -/
def NUL : Char := Char.ofNat 0

/-- Capacity of the packet envelope, `SecurePacket::PACKET_SIZE`. -/
def PACKET_SIZE : Nat := 1024

/-- The 62 characters of `charset` in `CryptoUtils::generate_random_string`
(`sizeof(charset) - 1 = 62`). -/
def charset : Str :=
  "0123456789ABCDEFGHIJKLMNOPQRSTUVWXYZabcdefghijklmnopqrstuvwxyz".toList

/-- `CryptoUtils::generate_random_string(length)`; `rand i` is the value of the
`i`-th call of `rand()`. -/
def generate_random_string (rand : Nat → Nat) (length : Nat) : Str :=
  (List.range length).map fun i => charset.getD (rand i % 62) '0'

/-- The envelope `std::array<char, PACKET_SIZE> data`. -/
structure SecurePacket where
  data : List Char
  size_eq : data.length = PACKET_SIZE
  deriving DecidableEq

/-- The array contents the string constructor leaves behind: the payload,
the delimiter when `vote_data.size() < PACKET_SIZE`, and for every later
position `i` the character `generate_random_string(1)[0]`, drawn with the
`rand()` value `rand i`. -/
def SecurePacket.fill (vote_data : Str) (rand : Nat → Nat) : List Char :=
  vote_data
    ++ (if vote_data.length < PACKET_SIZE then [NUL] else [])
    ++ (List.range' (vote_data.length + 1) (PACKET_SIZE - (vote_data.length + 1))).map
        fun i => (generate_random_string (fun _ => rand i) 1).headD '0'

/-- `SecurePacket::SecurePacket(const std::string& vote_data)`. -/
def SecurePacket.new (vote_data : Str) (rand : Nat → Nat) :
    Except Fault SecurePacket :=
  if h : vote_data.length > PACKET_SIZE then
    .error .runtime_error
  else
    .ok ⟨SecurePacket.fill vote_data rand, by
      unfold SecurePacket.fill
      by_cases h1 : vote_data.length < PACKET_SIZE
      · simp only [h1, if_true, List.length_append, List.length_map, List.length_range',
          List.length_singleton]
        omega
      · simp only [h1, if_false, List.length_append, List.length_map, List.length_range',
          List.length_nil]
        omega⟩

/-- `SecurePacket::SecurePacket()`: `data.fill(0)`. -/
def SecurePacket.zero : SecurePacket :=
  ⟨List.replicate PACKET_SIZE NUL, List.length_replicate _ _⟩

/-- `SecurePacket::get_content()`: `std::string(data.data())`, the characters
before the first NUL.  When the array holds no NUL the C++ reads on past the
end of the array, which has no defined behaviour. -/
def SecurePacket.get_content (p : SecurePacket) : Except Fault Str :=
  if NUL ∈ p.data then .ok (p.data.takeWhile fun c => c != NUL) else .error .undefined

/-- `VoterClient::generate_vote`. -/
def generate_vote (vote_content : Str) (rand : Nat → Nat) : Except Fault SecurePacket :=
  SecurePacket.new vote_content rand


/-! ### CryptoUtils -/

/-- `CryptoUtils::sha256`: the value of `std::hash<std::string>` (a 64-bit
`size_t`) written with `std::hex << std::setw(16) << std::setfill('0')`. -/
def sha256 (hasher : Str → Nat) (str : Str) : Str :=
  let hash_val := hasher str % 2 ^ 64
  let digits := Nat.toDigits 16 hash_val
  List.replicate (16 - digits.length) '0' ++ digits

/-- Decimal text of a signed integer, as `operator<<` and `std::to_string` write it. -/
def decimal : Int → Str
  | Int.ofNat n => Nat.toDigits 10 n
  | Int.negSucc n => '-' :: Nat.toDigits 10 (n + 1)

/-! ### Block -/

/-- The record `struct Block`; `timestamp` is a `time_t`, `nonce` a `uint64_t`. -/
structure Block where
  previous_hash : Str
  timestamp : Int
  data_hash : Str
  packet : SecurePacket
  block_hash : Str
  nonce : Nat
  deriving DecidableEq

/-- `Block::calculate_hash`: `ss << previous_hash << timestamp << data_hash << nonce`,
then `sha256(ss.str())`. -/
def Block.calculate_hash (hasher : Str → Nat) (b : Block) : Str :=
  sha256 hasher (b.previous_hash ++ decimal b.timestamp ++ b.data_hash ++ Nat.toDigits 10 b.nonce)

/-- The text `ss.str()` that `Block::calculate_hash` passes to `sha256`. -/
def Block.hash_input (b : Block) : Str :=
  b.previous_hash ++ decimal b.timestamp ++ b.data_hash ++ Nat.toDigits 10 b.nonce

/-- `Block::Block(prev_hash, pkt)`; `now` is the value of `std::time(nullptr)`. -/
def Block.new (hasher : Str → Nat) (now : Int) (prev_hash : Str) (pkt : SecurePacket) : Block :=
  let b : Block :=
    { previous_hash := prev_hash, packet := pkt, nonce := 0, timestamp := now,
      data_hash := sha256 hasher pkt.data, block_hash := [] }
  { b with block_hash := b.calculate_hash hasher }

/-- The `while` loop of `Block::mine_block`, run for at most `fuel` iterations;
`nonce++` wraps at `2^64`. -/
def Block.mine_loop (hasher : Str → Nat) (difficulty : Nat) : Nat → Block → Except Fault Block
  | 0, b =>
    if b.block_hash.take difficulty != List.replicate difficulty '0' then .error .out_of_fuel
    else .ok b
  | fuel + 1, b =>
    if b.block_hash.take difficulty != List.replicate difficulty '0' then
      let b1 : Block := { b with nonce := (b.nonce + 1) % 2 ^ 64 }
      Block.mine_loop hasher difficulty fuel { b1 with block_hash := b1.calculate_hash hasher }
    else .ok b

/-- `Block::mine_block(int difficulty)`.  For a negative `difficulty` the
construction of `target` throws. -/
def Block.mine_block (hasher : Str → Nat) (fuel : Nat) (b : Block) (difficulty : Int) :
    Except Fault Block :=
  if difficulty < 0 then .error .length_error
  else Block.mine_loop hasher difficulty.toNat fuel b

/-! ### Blockchain -/

/-- The members of `class Blockchain`. -/
structure Blockchain where
  chain : List Block
  difficulty : Int
  shard_id : Int
  deriving DecidableEq

/-- The shard files: `file name` is the content of the file called `name`
(`none` when it cannot be opened for reading), `writable name` tells whether it
can be opened for writing. -/
structure Disk where
  file : Str → Option Str
  writable : Str → Bool

/-- The disk after `bytes` has replaced the content of the file `name`. -/
def Disk.write (disk : Disk) (name : Str) (bytes : Str) : Disk :=
  { disk with file := fun n => if n = name then some bytes else disk.file n }

/-- `Blockchain::get_filename`. -/
def Blockchain.get_filename (bc : Blockchain) : Str :=
  "shard_".toList ++ decimal bc.shard_id ++ ".dat".toList

/-- The 8 bytes of a `size_t`, least significant first, as
`file.write(reinterpret_cast<const char*>(&size), sizeof(size))` writes them on a
64-bit little-endian machine. -/
def size_t_bytes (n : Nat) : Str :=
  (List.range 8).map fun k => Char.ofNat (n / 256 ^ k % 256)

/-- One block's record in `Blockchain::save_to_disk`. -/
def Block.serialize (b : Block) : Except Fault Str := do
  let content ← b.packet.get_content
  pure (size_t_bytes content.length ++ content
    ++ size_t_bytes b.block_hash.length ++ b.block_hash
    ++ size_t_bytes b.previous_hash.length ++ b.previous_hash)

/-- The `for (const auto& block : chain)` loop of `Blockchain::save_to_disk`. -/
def serialize_blocks : List Block → Except Fault Str
  | [] => .ok []
  | b :: rest => do
    let s ← b.serialize
    let r ← serialize_blocks rest
    pure (s ++ r)

/-- `Blockchain::save_to_disk`. -/
def Blockchain.save_to_disk (bc : Blockchain) (disk : Disk) : Except Fault Disk :=
  if !disk.writable bc.get_filename then .ok disk
  else do
    let records ← serialize_blocks bc.chain
    pure (disk.write bc.get_filename (size_t_bytes bc.chain.length ++ records))

/-- `file.read(reinterpret_cast<char*>(&size), sizeof(size))`: the value and the
rest of the stream, `none` when fewer than 8 bytes are left. -/
def read_size_t (s : Str) : Option (Nat × Str) :=
  if s.length < 8 then none
  else some ((s.take 8).foldr (fun c acc => c.toNat + 256 * acc) 0, s.drop 8)

/-- `std::string x(len, ' '); file.read(&x[0], len)`: the string and the rest
of the stream, `none` when fewer than `len` bytes are left. -/
def read_string (len : Nat) (s : Str) : Option (Str × Str) :=
  if s.length < len then none else some (s.take len, s.drop len)

/-- The `for (size_t i = 0; i < size; ++i)` loop of `Blockchain::load_from_disk`,
with `n` blocks still to read and `i` the index of the next one.  `now i` is
the clock value and `rand i` the `rand()` values used for block `i`.  When the
stream ends early a length is read from a failed stream and used while
indeterminate; only a short last `prev_hash` is harmless and keeps its blanks. -/
def load_blocks (hasher : Str → Nat) (now : Nat → Int) (rand : Nat → Nat → Nat) :
    Nat → Nat → Str → Except Fault (List Block)
  | 0, _, _ => .ok []
  | n + 1, i, s =>
    match read_size_t s with
    | none => .error .undefined
    | some (len, s1) =>
    match read_string len s1 with
    | none => .error .undefined
    | some (content, s2) =>
    match read_size_t s2 with
    | none => .error .undefined
    | some (hash_len, s3) =>
    match read_string hash_len s3 with
    | none => .error .undefined
    | some (block_hash, s4) =>
    match read_size_t s4 with
    | none => .error .undefined
    | some (prev_len, s5) =>
      let prev_hash := s5.take prev_len ++ List.replicate (prev_len - s5.length) ' '
      do
        let packet ← SecurePacket.new content (rand i)
        let b := Block.new hasher (now i) prev_hash packet
        let rest ← load_blocks hasher now rand n (i + 1) (s5.drop prev_len)
        pure ({ b with block_hash := block_hash } :: rest)

/-- `Blockchain::load_from_disk`. -/
def Blockchain.load_from_disk (hasher : Str → Nat) (now : Nat → Int) (rand : Nat → Nat → Nat)
    (bc : Blockchain) (disk : Disk) : Except Fault Blockchain :=
  match disk.file bc.get_filename with
  | none => .ok bc
  | some bytes =>
    match read_size_t bytes with
    | none => .error .undefined
    | some (size, s) => do
      let chain ← load_blocks hasher now rand size 0 s
      pure { bc with chain := chain }

/-- `Blockchain::Blockchain(int id)`.  The genesis block uses the clock value
`now 0` and the `rand()` values `rand 0`. -/
def Blockchain.new (hasher : Str → Nat) (now : Nat → Int) (rand : Nat → Nat → Nat)
    (disk : Disk) (id : Int) : Except Fault (Blockchain × Disk) := do
  let bc ← Blockchain.load_from_disk hasher now rand
    { chain := [], difficulty := 2, shard_id := id } disk
  if bc.chain.isEmpty then
    let genesis_packet ← SecurePacket.new "GENESIS_BLOCK".toList (rand 0)
    let genesis := Block.new hasher (now 0) "0".toList genesis_packet
    let bc1 : Blockchain := { bc with chain := bc.chain ++ [genesis] }
    let disk1 ← bc1.save_to_disk disk
    pure (bc1, disk1)
  else
    pure (bc, disk)

/-- `Blockchain::add_block`; `chain.back()` of an empty chain has no defined
behaviour. -/
def Blockchain.add_block (hasher : Str → Nat) (now : Int) (fuel : Nat) (bc : Blockchain)
    (disk : Disk) (packet : SecurePacket) : Except Fault (Blockchain × Disk) :=
  match bc.chain.getLast? with
  | none => .error .undefined
  | some tip => do
    let new_block ← (Block.new hasher now tip.block_hash packet).mine_block hasher fuel
      bc.difficulty
    let bc1 : Blockchain := { bc with chain := bc.chain ++ [new_block] }
    let disk1 ← bc1.save_to_disk disk
    pure (bc1, disk1)

/-- `Blockchain::is_chain_valid`: the loop over `i = 1 .. chain.size() - 1`. -/
def Blockchain.is_chain_valid (hasher : Str → Nat) (bc : Blockchain) : Bool :=
  (List.range' 1 (bc.chain.length - 1)).all fun i =>
    match bc.chain[i]?, bc.chain[i - 1]? with
    | some current, some previous =>
      if current.calculate_hash hasher != current.block_hash then false
      else if current.previous_hash != previous.block_hash then false
      else true
    | _, _ => true

/-- `Blockchain::get_size`. -/
def Blockchain.get_size (bc : Blockchain) : Nat := bc.chain.length

/-- `Blockchain::get_chain`. -/
def Blockchain.get_chain (bc : Blockchain) : List Block := bc.chain

/-! ### ShardController -/

/-- The members of `class ShardController`; `voted_ids` is a `std::set<int>`. -/
structure ShardController where
  shards : List Blockchain
  voted_ids : Finset Int
  shard_count : Int

/-- The loop of `ShardController::ShardController`, with `n` shards still to
make and `i` the id of the next one. -/
def ShardController.build (hasher : Str → Nat) (now : Nat → Nat → Int)
    (rand : Nat → Nat → Nat → Nat) : Nat → Nat → Disk → Except Fault (List Blockchain × Disk)
  | 0, _, disk => .ok ([], disk)
  | n + 1, i, disk => do
    let (bc, disk1) ← Blockchain.new hasher (now i) (rand i) disk i
    let (rest, disk2) ← ShardController.build hasher now rand n (i + 1) disk1
    pure (bc :: rest, disk2)

/-- `ShardController::ShardController(int count)`. -/
def ShardController.new (hasher : Str → Nat) (now : Nat → Nat → Int)
    (rand : Nat → Nat → Nat → Nat) (disk : Disk) (count : Int) :
    Except Fault (ShardController × Disk) := do
  let (shards, disk1) ← ShardController.build hasher now rand count.toNat 0 disk
  pure ({ shards := shards, voted_ids := ∅, shard_count := count }, disk1)

/-- The identity mixing of `ShardController::route_packet` on a 32-bit
`unsigned int`: `x = voter_id`, two rounds of `x = ((x >> 16) ^ x) * 0x45d9f3b`,
then `x = (x >> 16) ^ x`. -/
def mix (voter_id : Int) : Nat :=
  let x := (voter_id % 2 ^ 32).toNat
  let x := ((x >>> 16) ^^^ x) * 0x45d9f3b % 2 ^ 32
  let x := ((x >>> 16) ^^^ x) * 0x45d9f3b % 2 ^ 32
  (x >>> 16) ^^^ x

/-- The step `(x >> 16) ^ x` of `mix`. -/
def xorshift16 (x : Nat) : Nat := (x >>> 16) ^^^ x

/-- The step `x * 0x45d9f3b` of `mix` on a 32-bit `unsigned int`. -/
def mul_step (x : Nat) : Nat := x * 0x45d9f3b % 2 ^ 32

/-- Multiplication by `0x119de1f3`, the inverse of `0x45d9f3b` modulo `2^32`. -/
def mul_back (y : Nat) : Nat := y * 0x119de1f3 % 2 ^ 32

/-- The steps of `mix` undone in reverse order. -/
def unmix (y : Nat) : Nat :=
  xorshift16 (mul_back (xorshift16 (mul_back (xorshift16 y))))

/-- The shard index of `ShardController::route_packet`: `x % shard_count`
with `x = mix(voter_id)`; in this expression the `int shard_count` is
converted to `unsigned int`. -/
def shard_index (voter_id : Int) (shard_count : Int) : Nat :=
  mix voter_id % (shard_count % 2 ^ 32).toNat

/-- `ShardController::route_packet`.  The result holds the controller, the
disk and the text written to `std::cout`.  A remainder by zero and an index
past the end of `shards` have no defined behaviour. -/
def ShardController.route_packet (hasher : Str → Nat) (now : Int) (fuel : Nat)
    (sc : ShardController) (disk : Disk) (voter_id : Int) (packet : SecurePacket) :
    Except Fault (ShardController × Disk × Str) :=
  if voter_id ∈ sc.voted_ids then
    .ok (sc, disk, "ERROR: Voter ".toList ++ decimal voter_id ++ " has already voted!\n".toList)
  else
    let sc1 : ShardController := { sc with voted_ids := insert voter_id sc.voted_ids }
    if (sc1.shard_count % 2 ^ 32).toNat = 0 then .error .undefined
    else
      let shard_id := shard_index voter_id sc1.shard_count
      match sc1.shards[shard_id]? with
      | none => .error .undefined
      | some shard => do
        let (shard1, disk1) ← shard.add_block hasher now fuel disk packet
        pure ({ sc1 with shards := sc1.shards.set shard_id shard1 }, disk1, [])

/-- `tally[content]++` on the `std::map<std::string, int>`, kept as an
association list with one entry per key. -/
def tally_increment (content : Str) : List (Str × Nat) → List (Str × Nat)
  | [] => [(content, 1)]
  | (k, v) :: rest =>
    if content = k then (k, v + 1) :: rest else (k, v) :: tally_increment content rest

/-- The body of the inner loop of `ShardController::get_tally_json`. -/
def tally_block (tally : List (Str × Nat)) (block : Block) : Except Fault (List (Str × Nat)) := do
  let content ← block.packet.get_content
  if content = "GENESIS_BLOCK".toList ∨ content = "GENESIS".toList then pure tally
  else pure (tally_increment content tally)

/-- The inner loop `for (const auto& block : chain)`. -/
def tally_chain : List Block → List (Str × Nat) → Except Fault (List (Str × Nat))
  | [], tally => .ok tally
  | block :: rest, tally => do
    let tally1 ← tally_block tally block
    tally_chain rest tally1

/-- The outer loop `for (const auto& shard : shards)`. -/
def tally_shards : List Blockchain → List (Str × Nat) → Except Fault (List (Str × Nat))
  | [], tally => .ok tally
  | shard :: rest, tally => do
    let tally1 ← tally_chain shard.get_chain tally
    tally_shards rest tally1

/-- The map `tally` that `ShardController::get_tally_json` builds before it
writes the JSON text.  The counters are C++ `int`s: a counter that would pass
`2^31 - 1` overflows, which has no defined behaviour. -/
def ShardController.get_tally (sc : ShardController) : Except Fault (List (Str × Nat)) := do
  let tally ← tally_shards sc.shards []
  if tally.all (fun kv => kv.2 < 2 ^ 31) then pure tally else .error .undefined

/-- One vote as `main` submits it: the arguments of `generate_vote` and
`route_packet`, with the `rand()` values for the filler, the clock value for the
new block and the fuel for its mining. -/
structure VoteCall where
  voter_id : Int
  content : Str
  rand : Nat → Nat
  now : Int
  fuel : Nat

/-- The body of the loop over the votes in `main`: `generate_vote`, then
`route_packet`. -/
def submit (hasher : Str → Nat) (state : ShardController × Disk) (v : VoteCall) :
    Except Fault (ShardController × Disk) := do
  let packet ← generate_vote v.content v.rand
  let (sc1, disk1, _) ← state.1.route_packet hasher v.now v.fuel state.2 v.voter_id packet
  pure (sc1, disk1)

/-- The loop `for (const auto& v : votes)` of `main`. -/
def submit_all (hasher : Str → Nat) :
    List VoteCall → ShardController × Disk → Except Fault (ShardController × Disk)
  | [], state => .ok state
  | v :: rest, state => do
    let state1 ← submit hasher state v
    submit_all hasher rest state1

/-- The count the map holds for `candidate`, `0` when the key is absent. -/
def tally_count (tally : List (Str × Nat)) (candidate : Str) : Nat :=
  match tally.find? (fun kv => kv.1 = candidate) with
  | some kv => kv.2
  | none => 0

/-- The chain `blocks` with the packet of the block at index `i` replaced by
`pkt` and every other field of every block kept. -/
def replace_packet_at : Nat → SecurePacket → List Block → List Block
  | _, _, [] => []
  | 0, pkt, b :: rest => { b with packet := pkt } :: rest
  | i + 1, pkt, b :: rest => b :: replace_packet_at i pkt rest

/-- A string of 16 hexadecimal digits, the shape of every `sha256` result. -/
def is_hex16 (s : Str) : Prop :=
  s.length = 16 ∧ ∀ c ∈ s, c ∈ "0123456789abcdef".toList

/-- A map as `tally[content]++` builds it: one entry per key and no entry with
the count 0. -/
def tally_ok (tally : List (Str × Nat)) : Prop :=
  (tally.map Prod.fst).Nodup ∧ ∀ kv ∈ tally, 1 ≤ kv.2

/-- Number of blocks in `blocks` whose packet decodes to `candidate`. -/
def count_content (candidate : Str) (blocks : List Block) : Nat :=
  blocks.countP fun block => decide (block.packet.get_content = .ok candidate)

/-- Number of blocks, over all shards and at every position, whose packet
decodes to `candidate`. -/
def ShardController.blocks_for (sc : ShardController) (candidate : Str) : Nat :=
  (sc.shards.map fun shard => count_content candidate shard.get_chain).sum

/-- Number of blocks, over all shards and leaving out the first block of each
shard, whose packet decodes to `candidate`. -/
def ShardController.votes_for (sc : ShardController) (candidate : Str) : Nat :=
  (sc.shards.map fun shard => count_content candidate shard.get_chain.tail).sum

/-- The packet the constructor makes when it returns, the zero packet otherwise. -/
def SecurePacket.newD (p : Str) (rand : Nat → Nat) : SecurePacket :=
  match SecurePacket.new p rand with
  | .ok pkt => pkt
  | .error _ => SecurePacket.zero

/-- The genesis block `Blockchain::Blockchain` makes at the clock value `now`
with the `rand()` values `rand`. -/
def genesis_block (hasher : Str → Nat) (now : Int) (rand : Nat → Nat) : Block :=
  Block.new hasher now "0".toList (SecurePacket.newD "GENESIS_BLOCK".toList rand)

/-- A ledger whose chain is a fresh genesis block and nothing else. -/
def Blockchain.is_fresh (hasher : Str → Nat) (bc : Blockchain) : Prop :=
  ∃ (now : Int) (rand : Nat → Nat), bc.chain = [genesis_block hasher now rand]

/-- The controllers reached from `sc0` by `route_packet` calls that returned. -/
inductive ShardController.Run (hasher : Str → Nat) (sc0 : ShardController) :
    ShardController → Prop where
  | start : ShardController.Run hasher sc0 sc0
  | routed (now : Int) (fuel : Nat) (disk disk1 : Disk) (voter_id : Int)
      (packet : SecurePacket) (out : Str) (sc sc1 : ShardController)
      (hrun : ShardController.Run hasher sc0 sc)
      (hroute : sc.route_packet hasher now fuel disk voter_id packet = .ok (sc1, disk1, out)) :
      ShardController.Run hasher sc0 sc1

/-- The ledgers the claims on in-process appends speak of: made by the
constructor when `load_from_disk` left the chain empty, then extended by
`add_block` calls that returned. -/
inductive Blockchain.FreshRun (hasher : Str → Nat) : Blockchain → Prop where
  | fresh (now : Nat → Int) (rand : Nat → Nat → Nat) (disk disk1 : Disk) (id : Int)
      (bc : Blockchain)
      (hload : Blockchain.load_from_disk hasher now rand ⟨[], 2, id⟩ disk = .ok ⟨[], 2, id⟩)
      (hnew : Blockchain.new hasher now rand disk id = .ok (bc, disk1)) :
      Blockchain.FreshRun hasher bc
  | add (now : Int) (fuel : Nat) (disk disk1 : Disk) (packet : SecurePacket)
      (bc bc1 : Blockchain) (hrun : Blockchain.FreshRun hasher bc)
      (hadd : bc.add_block hasher now fuel disk packet = .ok (bc1, disk1)) :
      Blockchain.FreshRun hasher bc1

/-! ### Sample data used to instantiate the theorems -/

/-- A hash that misses the target for an input ending in `0` and meets it otherwise. -/
def sample_hasher : Str → Nat := fun s => if s.getLast? = some '0' then 2 ^ 63 else 0

/-- A `rand()` stream. -/
def sample_rand : Nat → Nat := fun i => i

/-- A disk with no shard file on it, every file writable. -/
def sample_disk : Disk := ⟨fun _ => none, fun _ => true⟩

/-- The packet of a vote for `A`. -/
def sample_vote : SecurePacket := SecurePacket.newD "A".toList sample_rand

/-- The genesis block the constructor makes at clock value 7. -/
def sample_genesis : Block :=
  Block.new sample_hasher 7 "0".toList (SecurePacket.newD "GENESIS_BLOCK".toList sample_rand)

/-- The ledger of shard 0 right after its construction on `sample_disk`. -/
def sample_chain : Blockchain := ⟨[sample_genesis], 2, 0⟩

/-- The block `add_block` makes for `sample_vote` at clock value 8; mining
stops at nonce 1. -/
def sample_mined : Block :=
  { Block.new sample_hasher 8 sample_genesis.block_hash sample_vote with
    nonce := 1, block_hash := "0000000000000000".toList }

/-- The ledger `sample_chain` after `add_block(sample_vote)`. -/
def sample_chain2 : Blockchain := ⟨[sample_genesis, sample_mined], 2, 0⟩

/-- A controller of two shards right after construction. -/
def sample_controller : ShardController :=
  ⟨[sample_chain, ⟨[sample_genesis], 2, 1⟩], ∅, 2⟩

/-- The controller `sample_controller` after voter 1000 has voted for `A`:
`mix 1000 = 4040455147` is odd, so the block goes to shard 1. -/
def sample_controller2 : ShardController :=
  ⟨[sample_chain, ⟨[sample_genesis, sample_mined], 2, 1⟩], insert 1000 ∅, 2⟩

/-- The packet of a vote for the candidate called `GENESIS`. -/
def sample_vote_genesis : SecurePacket := SecurePacket.newD "GENESIS".toList sample_rand

/-- The block `add_block` makes for `sample_vote_genesis` at clock value 8. -/
def sample_mined_genesis : Block :=
  { Block.new sample_hasher 8 sample_genesis.block_hash sample_vote_genesis with
    nonce := 1, block_hash := "0000000000000000".toList }

/-- A controller of one shard right after construction. -/
def sample_single : ShardController := ⟨[sample_chain], ∅, 1⟩

/-- The controller `sample_single` after voter 7 has voted for `GENESIS`. -/
def sample_single2 : ShardController :=
  ⟨[⟨[sample_genesis, sample_mined_genesis], 2, 0⟩], insert 7 ∅, 1⟩

/-- A hash that misses the target for an input ending in `5` and meets it otherwise. -/
def wrap_hasher : Str → Nat := fun s => if s.getLast? = some '5' then 2 ^ 63 else 0

/-- A block whose nonce is the largest `uint64_t` and whose hash matches its fields. -/
def sample_last_nonce : Block :=
  { Block.new wrap_hasher 7 "0".toList SecurePacket.zero with
    nonce := 2 ^ 64 - 1, block_hash := "8000000000000000".toList }

/-- Two blocks with different timestamps, data hashes and nonces. -/
def collide_a : Block :=
  ⟨"00000000000000aa".toList, 1, "2000000000000000".toList, SecurePacket.zero, [], 10⟩

/-- The partner of `collide_a`. -/
def collide_b : Block :=
  ⟨"00000000000000aa".toList, 12, "0000000000000001".toList, SecurePacket.zero, [], 0⟩

/-- A block with timestamp 1, data hash `2000000000000000` and nonce 0. -/
def claimed_a : Block :=
  ⟨"00000000000000aa".toList, 1, "2000000000000000".toList, SecurePacket.zero, [], 0⟩

/-- A block with timestamp 12, data hash `0000000000000000` and nonce 0. -/
def claimed_b : Block :=
  ⟨"00000000000000aa".toList, 12, "0000000000000000".toList, SecurePacket.zero, [], 0⟩

/-- The disk after `bc` has been saved on it. -/
def sample_saved (bc : Blockchain) (disk : Disk) : Disk :=
  match bc.save_to_disk disk with
  | .ok disk1 => disk1
  | .error _ => disk

/-- The ledger of shard 0 reopened at clock value 100 from the file that
`sample_chain2` was saved in. -/
def sample_reloaded : Blockchain :=
  match Blockchain.load_from_disk sample_hasher (fun _ => 100) (fun _ => sample_rand)
      ⟨[], 2, 0⟩ (sample_saved sample_chain2 sample_disk) with
  | .ok bc => bc
  | .error _ => ⟨[], 2, 0⟩

/-- Three votes from the voters 1000, 1001 and 1002, for `A`, `A` and `B`. -/
def sample_votes : List VoteCall :=
  [⟨1000, "A".toList, sample_rand, 8, 5⟩, ⟨1001, "A".toList, sample_rand, 9, 5⟩,
    ⟨1002, "B".toList, sample_rand, 10, 5⟩]

/-- The disk after the construction of `sample_controller` on `sample_disk`. -/
def sample_disk2 : Disk :=
  sample_saved ⟨[sample_genesis], 2, 1⟩ (sample_saved sample_chain sample_disk)

/-- The controller and the disk after `sample_votes` have been submitted to
`sample_controller`. -/
def sample_after_votes : ShardController × Disk :=
  match submit_all sample_hasher sample_votes (sample_controller, sample_disk2) with
  | .ok state => state
  | .error _ => (sample_controller, sample_disk2)

/-- One vote for `A` from each of the voters `0, 1, ..., 2^31 - 1`. -/
def overflow_votes : List VoteCall :=
  (List.range (2 ^ 31)).map fun (k : Nat) =>
    VoteCall.mk (Int.ofNat k) "A".toList sample_rand 8 1

/-! ## Theorems -/

/-! ### Packet codec -/

theorem SecurePacket.length_fill (vote_data : Str) (rand : Nat → Nat)
    (h : ¬ vote_data.length > PACKET_SIZE) :
    (SecurePacket.fill vote_data rand).length = PACKET_SIZE := by
  unfold SecurePacket.fill
  by_cases h1 : vote_data.length < PACKET_SIZE
  · simp only [h1, if_true, List.length_append, List.length_map, List.length_range',
      List.length_singleton]
    omega
  · simp only [h1, if_false, List.length_append, List.length_map, List.length_range',
      List.length_nil]
    omega

theorem SecurePacket.new_ok_iff (vote_data : Str) (rand : Nat → Nat) :
    (∃ pkt, SecurePacket.new vote_data rand = .ok pkt) ↔ vote_data.length ≤ PACKET_SIZE := by
  unfold SecurePacket.new
  by_cases h : vote_data.length > PACKET_SIZE
  · simp [h]
  · simp only [h, dite_false]
    constructor
    · intro _; omega
    · intro _; exact ⟨_, rfl⟩

theorem takeWhile_ne_append_cons (p : Str) (d : Char) (rest : List Char) (h : d ∉ p) :
    (p ++ d :: rest).takeWhile (fun c => c != d) = p := by
  induction p with
  | nil => simp
  | cons a t ih =>
    have ha : a ≠ d := fun e => h (by simp [e])
    have ht : d ∉ t := fun e => h (by simp [e])
    simp [List.takeWhile_cons, ha, ih ht]

theorem SecurePacket.fill_eq_of_lt (p : Str) (rand : Nat → Nat) (h : p.length < PACKET_SIZE) :
    ∃ rest, SecurePacket.fill p rand = p ++ NUL :: rest := by
  unfold SecurePacket.fill
  simp only [h, if_true]
  exact ⟨_, List.append_assoc p [NUL] _⟩

theorem SecurePacket.get_content_of_data (pkt : SecurePacket) (p rest : Str)
    (hd : pkt.data = p ++ NUL :: rest) (hp : NUL ∉ p) : pkt.get_content = .ok p := by
  unfold SecurePacket.get_content
  rw [hd, takeWhile_ne_append_cons p NUL rest hp]
  simp

/-- C1 (as amended): a payload that holds no NUL and is at most
`PACKET_SIZE - 1 = 1023` characters long is accepted by the constructor and
decoded unchanged by `get_content`, whatever the filler. -/
theorem packet_round_trip (p : Str) (rand : Nat → Nat)
    (hlen : p.length ≤ PACKET_SIZE - 1) (hnul : NUL ∉ p) :
    ∃ pkt, SecurePacket.new p rand = .ok pkt ∧ pkt.get_content = .ok p := by
  have hlt : p.length < PACKET_SIZE := by unfold PACKET_SIZE at *; omega
  have hle : ¬ p.length > PACKET_SIZE := by omega
  obtain ⟨rest, hrest⟩ := SecurePacket.fill_eq_of_lt p rand hlt
  refine ⟨⟨SecurePacket.fill p rand, SecurePacket.length_fill p rand hle⟩, ?_, ?_⟩
  · simp [SecurePacket.new, hle]
  · exact SecurePacket.get_content_of_data _ p rest hrest hnul

/-- The round trip of C1 on the payload `Vote A`. -/
theorem packet_round_trip_witness :
    ("Vote A".toList.length ≤ PACKET_SIZE - 1 ∧ NUL ∉ "Vote A".toList) ∧
    ∃ pkt, SecurePacket.new "Vote A".toList (fun i => i) = .ok pkt ∧
      pkt.get_content = .ok "Vote A".toList :=
  ⟨by decide, packet_round_trip "Vote A".toList (fun i => i) (by decide) (by decide)⟩

/-- C1 fails as stated: the three-byte payload `A`, NUL, `B` is accepted and
decoded as the one-byte payload `A`. -/
theorem packet_round_trip_fails_on_nul :
    (['A', NUL, 'B'] : Str).length ≤ PACKET_SIZE - 1 ∧
    (SecurePacket.new ['A', NUL, 'B'] (fun _ => 0) >>= SecurePacket.get_content) = .ok ['A'] ∧
    (SecurePacket.new ['A', NUL, 'B'] (fun _ => 0) >>= SecurePacket.get_content)
      ≠ .ok ['A', NUL, 'B'] := by
  decide

/-- C2 (as amended): the constructor throws for every payload longer than
`PACKET_SIZE = 1024`. -/
theorem packet_rejects_oversized (p : Str) (rand : Nat → Nat) (h : p.length > PACKET_SIZE) :
    SecurePacket.new p rand = .error .runtime_error := by
  simp [SecurePacket.new, h]

/-- The rejection of C2 on a payload of 1025 characters. -/
theorem packet_rejects_oversized_witness :
    (List.replicate 1025 'A').length > PACKET_SIZE ∧
    SecurePacket.new (List.replicate 1025 'A') (fun _ => 0) = .error .runtime_error :=
  ⟨by simp only [List.length_replicate]; decide,
    packet_rejects_oversized (List.replicate 1025 'A') (fun _ => 0)
      (by simp only [List.length_replicate]; decide)⟩

/-- C2 fails as stated: a payload of 1024 characters is longer than
`PACKET_SIZE - 1 = 1023`, yet the constructor returns a packet; its array is
the payload itself and holds no delimiter. -/
theorem packet_accepts_full_capacity :
    (List.replicate 1024 'A').length > PACKET_SIZE - 1 ∧
    ∃ pkt, SecurePacket.new (List.replicate 1024 'A') (fun _ => 0) = .ok pkt ∧
      pkt.data = List.replicate 1024 'A' ∧ NUL ∉ pkt.data := by
  have hl : (List.replicate 1024 'A').length = 1024 := List.length_replicate _ _
  have hfill : SecurePacket.fill (List.replicate 1024 'A') (fun _ => 0)
      = List.replicate 1024 'A' := by
    unfold SecurePacket.fill
    rw [hl]
    simp only [PACKET_SIZE, lt_self_iff_false, if_false, List.append_nil]
    exact List.append_nil _
  have hsz : (List.replicate 1024 'A').length = PACKET_SIZE := hl
  refine ⟨by rw [hl]; decide, ⟨List.replicate 1024 'A', hsz⟩, ?_, rfl, ?_⟩
  · unfold SecurePacket.new
    rw [dif_neg (by rw [hl]; decide)]
    simp only [hfill]
  · intro hmem
    exact absurd (List.eq_of_mem_replicate hmem) (by decide)

/-! ### Blocks and mining -/

theorem Block.new_hash (hasher : Str → Nat) (now : Int) (prev : Str) (pkt : SecurePacket) :
    (Block.new hasher now prev pkt).block_hash
      = (Block.new hasher now prev pkt).calculate_hash hasher := rfl

/-- What the mining loop keeps and what it establishes. -/
theorem Block.mine_loop_spec (hasher : Str → Nat) (d : Nat) :
    ∀ (fuel : Nat) (b b' : Block), Block.mine_loop hasher d fuel b = .ok b' →
      b'.block_hash.take d = List.replicate d '0' ∧
      b'.previous_hash = b.previous_hash ∧ b'.timestamp = b.timestamp ∧
      b'.data_hash = b.data_hash ∧ b'.packet = b.packet ∧
      (b.block_hash = b.calculate_hash hasher → b'.block_hash = b'.calculate_hash hasher) := by
  intro fuel
  induction fuel with
  | zero =>
    intro b b' h
    unfold Block.mine_loop at h
    by_cases hc : b.block_hash.take d = List.replicate d '0'
    · simp only [hc, bne_self_eq_false, Bool.false_eq_true, if_false, Except.ok.injEq] at h
      subst h
      exact ⟨hc, rfl, rfl, rfl, rfl, id⟩
    · simp [hc] at h
  | succ n ih =>
    intro b b' h
    unfold Block.mine_loop at h
    by_cases hc : b.block_hash.take d = List.replicate d '0'
    · simp only [hc, bne_self_eq_false, Bool.false_eq_true, if_false, Except.ok.injEq] at h
      subst h
      exact ⟨hc, rfl, rfl, rfl, rfl, id⟩
    · have hne : (b.block_hash.take d != List.replicate d '0') = true := by simp [hc]
      simp only [hne, if_true] at h
      obtain ⟨h1, h2, h3, h4, h5, h6⟩ := ih _ _ h
      exact ⟨h1, h2, h3, h4, h5, fun _ => h6 rfl⟩

/-- More fuel does not change the result of a mining run that has finished. -/
theorem Block.mine_loop_mono (hasher : Str → Nat) (d : Nat) :
    ∀ (fuel : Nat) (b b' : Block), Block.mine_loop hasher d fuel b = .ok b' →
      ∀ k, Block.mine_loop hasher d (fuel + k) b = .ok b' := by
  intro fuel
  induction fuel with
  | zero =>
    intro b b' h k
    unfold Block.mine_loop at h
    by_cases hc : b.block_hash.take d = List.replicate d '0'
    · simp only [hc, bne_self_eq_false, Bool.false_eq_true, if_false] at h
      cases k with
      | zero => simp [Block.mine_loop, hc, h]
      | succ k =>
        rw [Nat.zero_add]
        unfold Block.mine_loop
        simp only [hc, bne_self_eq_false, Bool.false_eq_true, if_false, h]
    · simp [hc] at h
  | succ n ih =>
    intro b b' h k
    rw [Nat.add_right_comm]
    unfold Block.mine_loop at h ⊢
    by_cases hc : b.block_hash.take d = List.replicate d '0'
    · simp only [hc, bne_self_eq_false, Bool.false_eq_true, if_false] at h ⊢
      exact h
    · have hne : (b.block_hash.take d != List.replicate d '0') = true := by simp [hc]
      simp only [hne, if_true] at h ⊢
      exact ih _ _ h k

theorem Block.mine_block_eq_ok (hasher : Str → Nat) (fuel : Nat) (b b' : Block) (d : Int)
    (h : b.mine_block hasher fuel d = .ok b') :
    0 ≤ d ∧ Block.mine_loop hasher d.toNat fuel b = .ok b' := by
  unfold Block.mine_block at h
  by_cases hd : d < 0
  · simp [hd] at h
  · simp only [hd, if_false] at h
    exact ⟨by omega, h⟩

/-- C9: whenever `mine_block(d)` returns for a difficulty `d >= 0`, the block
hash has at least `d` characters and its first `d` characters are all `'0'`. -/
theorem mine_block_meets_target (hasher : Str → Nat) (fuel : Nat) (b b' : Block) (d : Int)
    (_hd : 0 ≤ d) (h : b.mine_block hasher fuel d = .ok b') :
    d.toNat ≤ b'.block_hash.length ∧ b'.block_hash.take d.toNat = List.replicate d.toNat '0' ∧
      ∀ i, i < d.toNat → b'.block_hash[i]? = some '0' := by
  obtain ⟨_, hl⟩ := Block.mine_block_eq_ok hasher fuel b b' d h
  have ht := (Block.mine_loop_spec hasher d.toNat fuel b b' hl).1
  have hlen : d.toNat ≤ b'.block_hash.length := by
    have := congrArg List.length ht
    simp only [List.length_take, List.length_replicate] at this
    omega
  refine ⟨hlen, ht, fun i hi => ?_⟩
  have h1 : (b'.block_hash.take d.toNat)[i]? = b'.block_hash[i]? := by
    rw [List.getElem?_take]; simp [hi]
  rw [← h1, ht]
  simp [List.getElem?_replicate, hi]

set_option maxRecDepth 100000 in
/-- The target of C9 on a run that starts from the hash `8000000000000000` and
stops at nonce 1 with the hash `0000000000000000`. -/
theorem mine_block_meets_target_witness :
    ((0 : Int) ≤ 2 ∧
      (Block.new sample_hasher 7 "0".toList SecurePacket.zero).block_hash
        = "8000000000000000".toList ∧
      (Block.new sample_hasher 7 "0".toList SecurePacket.zero).mine_block sample_hasher 5 2
        = .ok { Block.new sample_hasher 7 "0".toList SecurePacket.zero with
                nonce := 1, block_hash := "0000000000000000".toList }) ∧
    (2 : Int).toNat ≤ "0000000000000000".toList.length ∧
      "0000000000000000".toList.take (2 : Int).toNat = List.replicate (2 : Int).toNat '0' ∧
      ∀ i, i < (2 : Int).toNat → "0000000000000000".toList[i]? = some '0' :=
  ⟨⟨by decide, by decide, by decide⟩,
    mine_block_meets_target sample_hasher 5
      (Block.new sample_hasher 7 "0".toList SecurePacket.zero)
      { Block.new sample_hasher 7 "0".toList SecurePacket.zero with
        nonce := 1, block_hash := "0000000000000000".toList } 2 (by decide) (by decide)⟩

/-! ### Chain validation -/

/-- The test `is_chain_valid` makes at index `i`. -/
theorem Blockchain.valid_tests (hasher : Str → Nat) (bc : Blockchain) :
    bc.is_chain_valid hasher = true ↔
      ∀ i, 1 ≤ i → i < bc.chain.length → ∀ current previous,
        bc.chain[i]? = some current → bc.chain[i - 1]? = some previous →
        previous.block_hash = current.previous_hash ∧
          current.block_hash = current.calculate_hash hasher := by
  unfold Blockchain.is_chain_valid
  rw [List.all_eq_true]
  constructor
  · intro h i h1 h2 current previous hc hp
    have hmem : i ∈ List.range' 1 (bc.chain.length - 1) := by
      rw [List.mem_range']
      exact ⟨i - 1, by omega, by omega⟩
    have := h i hmem
    rw [hc, hp] at this
    by_cases e1 : current.calculate_hash hasher = current.block_hash
    · by_cases e2 : current.previous_hash = previous.block_hash
      · exact ⟨e2.symm, e1.symm⟩
      · simp [e1, e2] at this
    · simp [e1] at this
  · intro h i hmem
    rw [List.mem_range'] at hmem
    obtain ⟨k, hk, hi⟩ := hmem
    have hi1 : i = k + 1 := by omega
    subst hi1
    have h2 : k + 1 < bc.chain.length := by omega
    have h3 : k < bc.chain.length := by omega
    have e := h (k + 1) (by omega) h2 bc.chain[k + 1] bc.chain[k]
      (List.getElem?_eq_getElem h2) (by rw [Nat.add_sub_cancel]; exact List.getElem?_eq_getElem h3)
    rw [Nat.add_sub_cancel, List.getElem?_eq_getElem h2, List.getElem?_eq_getElem h3]
    simp [e.2.symm, e.1]

/-- C8: `is_chain_valid()` is true exactly when every block at an index
`1 <= i < size` carries the `block_hash` of its predecessor as `previous_hash`
and a `block_hash` equal to its own `calculate_hash()`. -/
theorem is_chain_valid_iff (hasher : Str → Nat) (bc : Blockchain) :
    bc.is_chain_valid hasher = true ↔
      ∀ (i : Nat) (_ : 1 ≤ i) (_ : i < bc.get_chain.length),
        bc.get_chain[i].previous_hash = bc.get_chain[i - 1].block_hash ∧
        bc.get_chain[i].block_hash = bc.get_chain[i].calculate_hash hasher := by
  rw [Blockchain.valid_tests]
  unfold Blockchain.get_chain
  constructor
  · intro h i h1 h2
    have h3 : i - 1 < bc.chain.length := by omega
    have e := h i h1 h2 bc.chain[i] bc.chain[i - 1]
      (List.getElem?_eq_getElem h2) (List.getElem?_eq_getElem h3)
    exact ⟨e.1.symm, e.2⟩
  · intro h i h1 h2 current previous hc hp
    have h3 : i - 1 < bc.chain.length := by omega
    rw [List.getElem?_eq_getElem h2] at hc
    rw [List.getElem?_eq_getElem h3] at hp
    cases hc
    cases hp
    have e := h i h1 h2
    exact ⟨e.1.symm, e.2⟩

/-- C7 (as amended): if the block at an index `1 <= i < size` has a
`block_hash` other than its `calculate_hash()`, or a `previous_hash` other than
the `block_hash` of the block before it, then `is_chain_valid()` is false. -/
theorem tamper_detected (hasher : Str → Nat) (bc : Blockchain) (i : Nat)
    (h1 : 1 ≤ i) (h2 : i < bc.get_chain.length)
    (h : bc.get_chain[i].block_hash ≠ bc.get_chain[i].calculate_hash hasher ∨
      bc.get_chain[i].previous_hash ≠ bc.get_chain[i - 1].block_hash) :
    bc.is_chain_valid hasher = false := by
  rw [← Bool.not_eq_true, Blockchain.valid_tests]
  intro hall
  have h3 : i - 1 < bc.chain.length := by unfold Blockchain.get_chain at h2; omega
  have e := hall i h1 h2 bc.chain[i] bc.chain[i - 1]
    (List.getElem?_eq_getElem h2) (List.getElem?_eq_getElem h3)
  unfold Blockchain.get_chain at h
  rcases h with h | h
  · exact h e.2
  · exact h e.1.symm

set_option maxRecDepth 100000 in
/-- The detection of C7 on a two-block chain whose second block had its nonce
changed from 1 to 10. -/
theorem tamper_detected_witness :
    ((1 ≤ 1 ∧ 1 < [sample_genesis, { sample_mined with nonce := 10 }].length) ∧
      ({ sample_mined with nonce := 10 } : Block).block_hash
        ≠ ({ sample_mined with nonce := 10 } : Block).calculate_hash sample_hasher) ∧
    Blockchain.is_chain_valid sample_hasher
      ⟨[sample_genesis, { sample_mined with nonce := 10 }], 2, 0⟩ = false :=
  ⟨⟨by decide, by decide⟩,
    tamper_detected sample_hasher ⟨[sample_genesis, { sample_mined with nonce := 10 }], 2, 0⟩ 1
      (by decide) (by decide) (Or.inl (by decide))⟩

set_option maxRecDepth 100000 in
/-- C7 fails as stated at index 0: in the two-block chain made by the
constructor and one `add_block`, changing the nonce of the first block makes
its `block_hash` differ from its `calculate_hash()`, and `is_chain_valid()` is
still true. -/
theorem tamper_at_index_zero_undetected :
    (0 < (⟨[{ sample_genesis with nonce := 1 }, sample_mined], 2, 0⟩ : Blockchain).get_size) ∧
    ({ sample_genesis with nonce := 1 } : Block).block_hash
      ≠ ({ sample_genesis with nonce := 1 } : Block).calculate_hash sample_hasher ∧
    Blockchain.is_chain_valid sample_hasher
      ⟨[{ sample_genesis with nonce := 1 }, sample_mined], 2, 0⟩ = true := by
  decide

/-! ### Appending -/

theorem Blockchain.add_block_eq_ok (hasher : Str → Nat) (now : Int) (fuel : Nat)
    (bc bc1 : Blockchain) (disk disk1 : Disk) (packet : SecurePacket)
    (h : bc.add_block hasher now fuel disk packet = .ok (bc1, disk1)) :
    ∃ tip mined, bc.chain.getLast? = some tip ∧
      (Block.new hasher now tip.block_hash packet).mine_block hasher fuel bc.difficulty
        = .ok mined ∧
      bc1 = { bc with chain := bc.chain ++ [mined] } ∧
      bc1.save_to_disk disk = .ok disk1 := by
  unfold Blockchain.add_block at h
  cases ht : bc.chain.getLast? with
  | none => simp [ht] at h
  | some tip =>
    simp only [ht] at h
    cases hm : (Block.new hasher now tip.block_hash packet).mine_block hasher fuel
        bc.difficulty with
    | error e => simp [hm, bind, Except.bind] at h
    | ok mined =>
      simp only [hm, bind, Except.bind] at h
      cases hs : Blockchain.save_to_disk { bc with chain := bc.chain ++ [mined] } disk with
      | error e => simp [hs] at h
      | ok d =>
        simp only [hs, pure, Except.pure, Except.ok.injEq, Prod.mk.injEq] at h
        obtain ⟨hb, hd⟩ := h
        subst hb
        subst hd
        exact ⟨tip, mined, rfl, hm, rfl, hs⟩

/-- The block `add_block` appends: linked to the tip, carrying the packet,
and with a hash that matches its fields. -/
theorem Blockchain.add_block_spec (hasher : Str → Nat) (now : Int) (fuel : Nat)
    (bc bc1 : Blockchain) (disk disk1 : Disk) (packet : SecurePacket)
    (h : bc.add_block hasher now fuel disk packet = .ok (bc1, disk1)) :
    ∃ tip mined, bc.chain.getLast? = some tip ∧ bc1.chain = bc.chain ++ [mined] ∧
      bc1.difficulty = bc.difficulty ∧ bc1.shard_id = bc.shard_id ∧
      mined.previous_hash = tip.block_hash ∧ mined.packet = packet ∧
      mined.block_hash = mined.calculate_hash hasher := by
  obtain ⟨tip, mined, ht, hm, hb, _⟩ :=
    Blockchain.add_block_eq_ok hasher now fuel bc bc1 disk disk1 packet h
  obtain ⟨_, hl⟩ := Block.mine_block_eq_ok hasher fuel _ mined bc.difficulty hm
  obtain ⟨_, h2, _, _, h5, h6⟩ := Block.mine_loop_spec hasher _ fuel _ mined hl
  subst hb
  exact ⟨tip, mined, ht, rfl, rfl, rfl, h2, h5, h6 (Block.new_hash hasher now _ packet)⟩

/-- C5: when `add_block(packet)` returns on a non-empty ledger, `get_size()`
has grown by exactly 1, every block that was in the chain is still at its
index, and the new last block carries the packet and has the `block_hash` of
the former last block as its `previous_hash`. -/
theorem add_block_appends (hasher : Str → Nat) (now : Int) (fuel : Nat)
    (bc bc1 : Blockchain) (disk disk1 : Disk) (packet : SecurePacket)
    (_hne : bc.get_size ≠ 0)
    (h : bc.add_block hasher now fuel disk packet = .ok (bc1, disk1)) :
    bc1.get_size = bc.get_size + 1 ∧
    (∀ i, i < bc.get_size → bc1.get_chain[i]? = bc.get_chain[i]?) ∧
    ∃ tip last, bc.get_chain.getLast? = some tip ∧ bc1.get_chain.getLast? = some last ∧
      bc1.get_chain = bc.get_chain ++ [last] ∧
      last.previous_hash = tip.block_hash ∧ last.packet = packet := by
  obtain ⟨tip, mined, ht, hc, _, _, hp, hk, _⟩ :=
    Blockchain.add_block_spec hasher now fuel bc bc1 disk disk1 packet h
  unfold Blockchain.get_size Blockchain.get_chain
  refine ⟨by simp [hc], fun i hi => ?_, tip, mined, ht, by simp [hc], hc, hp, hk⟩
  rw [hc, List.getElem?_append_left hi]

set_option maxRecDepth 100000 in
/-- The append of C5 on the ledger of a fresh shard 0. -/
theorem add_block_appends_witness :
    (sample_chain.get_size ≠ 0 ∧
      sample_chain.add_block sample_hasher 8 5 sample_disk sample_vote
        = .ok (sample_chain2, sample_saved sample_chain2 sample_disk)) ∧
    sample_chain2.get_size = sample_chain.get_size + 1 ∧
    (∀ i, i < sample_chain.get_size → sample_chain2.get_chain[i]? = sample_chain.get_chain[i]?) ∧
    ∃ tip last, sample_chain.get_chain.getLast? = some tip ∧
      sample_chain2.get_chain.getLast? = some last ∧
      sample_chain2.get_chain = sample_chain.get_chain ++ [last] ∧
      last.previous_hash = tip.block_hash ∧ last.packet = sample_vote :=
  ⟨⟨by decide, by rfl⟩,
    add_block_appends sample_hasher 8 5 sample_chain sample_chain2 sample_disk
      (sample_saved sample_chain2 sample_disk) sample_vote (by decide) (by rfl)⟩

/-! ### Validity of in-process appends -/

theorem Blockchain.is_chain_valid_append (hasher : Str → Nat) (bc bc1 : Blockchain)
    (tip mined : Block) (hv : bc.is_chain_valid hasher = true)
    (ht : bc.chain.getLast? = some tip) (hc : bc1.chain = bc.chain ++ [mined])
    (hp : mined.previous_hash = tip.block_hash)
    (hh : mined.block_hash = mined.calculate_hash hasher) :
    bc1.is_chain_valid hasher = true := by
  rw [Blockchain.valid_tests] at hv ⊢
  intro i h1 h2 current previous hcur hprev
  rw [hc] at h2 hcur hprev
  rw [List.length_append, List.length_singleton] at h2
  by_cases hi : i < bc.chain.length
  · rw [List.getElem?_append_left hi] at hcur
    rw [List.getElem?_append_left (by omega)] at hprev
    exact hv i h1 hi current previous hcur hprev
  · have hi1 : i = bc.chain.length := by omega
    subst hi1
    rw [List.getElem?_concat_length] at hcur
    rw [List.getElem?_append_left (by omega), ← List.getLast?_eq_getElem?, ht] at hprev
    cases hcur
    cases hprev
    exact ⟨hp.symm, hh⟩

theorem Blockchain.new_fresh (hasher : Str → Nat) (now : Nat → Int) (rand : Nat → Nat → Nat)
    (disk disk1 : Disk) (id : Int) (bc : Blockchain)
    (hload : Blockchain.load_from_disk hasher now rand ⟨[], 2, id⟩ disk = .ok ⟨[], 2, id⟩)
    (hnew : Blockchain.new hasher now rand disk id = .ok (bc, disk1)) :
    bc = ⟨[Block.new hasher (now 0) "0".toList
        (SecurePacket.newD "GENESIS_BLOCK".toList (rand 0))], 2, id⟩ ∧
      bc.save_to_disk disk = .ok disk1 := by
  have hpk : SecurePacket.new "GENESIS_BLOCK".toList (rand 0)
      = .ok (SecurePacket.newD "GENESIS_BLOCK".toList (rand 0)) := by
    unfold SecurePacket.newD
    have hlen : ¬ "GENESIS_BLOCK".toList.length > PACKET_SIZE := by decide
    simp only [SecurePacket.new, hlen, dite_false]
  unfold Blockchain.new at hnew
  simp only [hload, hpk, bind, Except.bind, List.isEmpty_nil, if_true, List.nil_append] at hnew
  split at hnew
  · cases hnew
  · rename_i d hs
    simp only [pure, Except.pure, Except.ok.injEq, Prod.mk.injEq] at hnew
    obtain ⟨hb, hd⟩ := hnew
    subst hb
    subst hd
    exact ⟨rfl, hs⟩

/-- C6: a ledger made by the constructor on the genesis path (nothing loaded
from disk) and then extended by `add_block` calls that returned is valid:
`is_chain_valid()` is true after the constructor and after every `add_block`. -/
theorem fresh_run_valid (hasher : Str → Nat) (bc : Blockchain)
    (h : Blockchain.FreshRun hasher bc) : bc.is_chain_valid hasher = true := by
  induction h with
  | fresh now rand disk disk1 id bc hload hnew =>
    obtain ⟨hb, _⟩ := Blockchain.new_fresh hasher now rand disk disk1 id bc hload hnew
    subst hb
    rfl
  | add now fuel disk disk1 packet bc bc1 _ hadd ih =>
    obtain ⟨tip, mined, ht, hc, _, _, hp, _, hh⟩ :=
      Blockchain.add_block_spec hasher now fuel bc bc1 disk disk1 packet hadd
    exact Blockchain.is_chain_valid_append hasher bc bc1 tip mined ih ht hc hp hh

set_option maxRecDepth 100000 in
/-- The invariant of C6 on the run: constructor on an empty disk, then one
`add_block`. -/
theorem fresh_run_valid_witness :
    Blockchain.FreshRun sample_hasher sample_chain2 ∧
    sample_chain2.is_chain_valid sample_hasher = true :=
  have hrun : Blockchain.FreshRun sample_hasher sample_chain2 :=
    Blockchain.FreshRun.add 8 5 sample_disk (sample_saved sample_chain2 sample_disk)
      sample_vote sample_chain sample_chain2
      (Blockchain.FreshRun.fresh (fun _ => 7) (fun _ => sample_rand) sample_disk
        (sample_saved sample_chain sample_disk) 0 sample_chain (by rfl) (by rfl))
      (by rfl)
  ⟨hrun, fresh_run_valid sample_hasher sample_chain2 hrun⟩

/-! ### Routing -/

theorem shard_index_eq (voter_id shard_count : Int) (h1 : 1 ≤ shard_count)
    (h2 : shard_count < 2 ^ 31) :
    (shard_count % 2 ^ 32).toNat = shard_count.toNat ∧ shard_count.toNat ≠ 0 ∧
      shard_index voter_id shard_count = mix voter_id % shard_count.toNat := by
  have h : shard_count % 2 ^ 32 = shard_count := Int.emod_eq_of_lt (by omega) (by omega)
  refine ⟨by rw [h], by omega, ?_⟩
  unfold shard_index
  rw [h]

/-- The accepted path of `route_packet` in terms of `add_block` on the target shard. -/
theorem ShardController.route_packet_eq_ok (hasher : Str → Nat) (now : Int) (fuel : Nat)
    (sc sc1 : ShardController) (disk disk1 : Disk) (out : Str) (voter_id : Int)
    (packet : SecurePacket) (hnew : voter_id ∉ sc.voted_ids)
    (h : sc.route_packet hasher now fuel disk voter_id packet = .ok (sc1, disk1, out)) :
    (sc.shard_count % 2 ^ 32).toNat ≠ 0 ∧
    ∃ shard shard1, sc.shards[shard_index voter_id sc.shard_count]? = some shard ∧
      shard.add_block hasher now fuel disk packet = .ok (shard1, disk1) ∧
      sc1 = ⟨sc.shards.set (shard_index voter_id sc.shard_count) shard1,
        insert voter_id sc.voted_ids, sc.shard_count⟩ ∧ out = [] := by
  unfold ShardController.route_packet at h
  rw [if_neg hnew] at h
  dsimp only at h
  split at h
  · cases h
  · rename_i hz
    refine ⟨hz, ?_⟩
    split at h
    · cases h
    · rename_i shard hs
      cases ha : shard.add_block hasher now fuel disk packet with
      | error e =>
        rw [ha] at h
        cases h
      | ok r =>
        obtain ⟨shard1, d1⟩ := r
        rw [ha] at h
        simp only [bind, Except.bind, pure, Except.pure, Except.ok.injEq, Prod.mk.injEq] at h
        obtain ⟨hsc, hd, ho⟩ := h
        subst hsc
        subst hd
        exact ⟨shard, shard1, hs, ha, rfl, ho.symm⟩

/-- C3: when `voter_id` is already in `voted_ids`, `route_packet` returns with
the controller (its `voted_ids` and every shard) and the shard files exactly as
they were, having only written the error line to `std::cout`. -/
theorem route_packet_duplicate (hasher : Str → Nat) (now : Int) (fuel : Nat)
    (sc : ShardController) (disk : Disk) (voter_id : Int) (packet : SecurePacket)
    (h : voter_id ∈ sc.voted_ids) :
    sc.route_packet hasher now fuel disk voter_id packet
      = .ok (sc, disk,
          "ERROR: Voter ".toList ++ decimal voter_id ++ " has already voted!\n".toList) := by
  unfold ShardController.route_packet
  rw [if_pos h]

set_option maxRecDepth 100000 in
/-- The duplicate of C3 as the second of two calls with the id 1000: the first
call is accepted, the second changes nothing. -/
theorem route_packet_duplicate_witness :
    (sample_controller.route_packet sample_hasher 8 5 sample_disk 1000 sample_vote
        = .ok (sample_controller2,
            sample_saved ⟨[sample_genesis, sample_mined], 2, 1⟩ sample_disk, []) ∧
      (1000 : Int) ∈ sample_controller2.voted_ids) ∧
    sample_controller2.route_packet sample_hasher 9 5
        (sample_saved ⟨[sample_genesis, sample_mined], 2, 1⟩ sample_disk) 1000 sample_vote
      = .ok (sample_controller2, sample_saved ⟨[sample_genesis, sample_mined], 2, 1⟩ sample_disk,
          "ERROR: Voter ".toList ++ decimal 1000 ++ " has already voted!\n".toList) :=
  ⟨⟨by rfl, by decide⟩,
    route_packet_duplicate sample_hasher 9 5 sample_controller2
      (sample_saved ⟨[sample_genesis, sample_mined], 2, 1⟩ sample_disk) 1000 sample_vote
      (by decide)⟩

/-- C4: for a controller whose `shard_count` is an `int` that is at least 1
and a `voter_id` not yet in `voted_ids`, a call of `route_packet` that returns
has added `voter_id` to `voted_ids`, has appended exactly one block, carrying
the packet, to the shard at index `mix(voter_id) mod shard_count`, an index
inside `shards` that is a function of `voter_id` and `shard_count` alone, and
has left every other shard, the number of shards and `shard_count` as they
were. -/
theorem route_packet_accepted (hasher : Str → Nat) (now : Int) (fuel : Nat)
    (sc sc1 : ShardController) (disk disk1 : Disk) (out : Str) (voter_id : Int)
    (packet : SecurePacket)
    (hcount : 1 ≤ sc.shard_count) (hint : sc.shard_count < 2 ^ 31)
    (hnew : voter_id ∉ sc.voted_ids)
    (h : sc.route_packet hasher now fuel disk voter_id packet = .ok (sc1, disk1, out)) :
    sc1.voted_ids = insert voter_id sc.voted_ids ∧
    sc1.shard_count = sc.shard_count ∧ sc1.shards.length = sc.shards.length ∧
    shard_index voter_id sc.shard_count = mix voter_id % sc.shard_count.toNat ∧
    shard_index voter_id sc.shard_count < sc.shards.length ∧
    (∃ shard block, sc.shards[shard_index voter_id sc.shard_count]? = some shard ∧
      block.packet = packet ∧
      sc1.shards[shard_index voter_id sc.shard_count]?
        = some { shard with chain := shard.chain ++ [block] }) ∧
    (∀ j, j ≠ shard_index voter_id sc.shard_count → sc1.shards[j]? = sc.shards[j]?) := by
  obtain ⟨_, shard, shard1, hs, ha, hsc, _⟩ :=
    ShardController.route_packet_eq_ok hasher now fuel sc sc1 disk disk1 out voter_id packet hnew h
  obtain ⟨tip, mined, _, hm, hb, _⟩ :=
    Blockchain.add_block_eq_ok hasher now fuel shard shard1 disk disk1 packet ha
  obtain ⟨_, hl⟩ := Block.mine_block_eq_ok hasher fuel _ mined shard.difficulty hm
  obtain ⟨_, _, _, _, hp, _⟩ := Block.mine_loop_spec hasher _ fuel _ mined hl
  have hlt : shard_index voter_id sc.shard_count < sc.shards.length := by
    by_contra hge
    rw [List.getElem?_eq_none (by omega)] at hs
    cases hs
  subst hsc
  subst hb
  refine ⟨rfl, rfl, by simp, (shard_index_eq voter_id sc.shard_count hcount hint).2.2, hlt,
    ⟨shard, mined, hs, hp, ?_⟩, fun j hj => ?_⟩
  · simp [List.getElem?_set_self hlt]
  · simp [List.getElem?_set_ne (Ne.symm hj)]

set_option maxRecDepth 100000 in
/-- The accepted call of C4 for the id 1000 on a fresh controller of two shards. -/
theorem route_packet_accepted_witness :
    ((1 ≤ sample_controller.shard_count ∧ sample_controller.shard_count < 2 ^ 31 ∧
        (1000 : Int) ∉ sample_controller.voted_ids) ∧
      sample_controller.route_packet sample_hasher 8 5 sample_disk 1000 sample_vote
        = .ok (sample_controller2,
            sample_saved ⟨[sample_genesis, sample_mined], 2, 1⟩ sample_disk, [])) ∧
    sample_controller2.voted_ids = insert 1000 sample_controller.voted_ids ∧
    sample_controller2.shard_count = sample_controller.shard_count ∧
    sample_controller2.shards.length = sample_controller.shards.length ∧
    shard_index 1000 sample_controller.shard_count
      = mix 1000 % sample_controller.shard_count.toNat ∧
    shard_index 1000 sample_controller.shard_count < sample_controller.shards.length ∧
    (∃ shard block, sample_controller.shards[shard_index 1000 sample_controller.shard_count]?
        = some shard ∧ block.packet = sample_vote ∧
      sample_controller2.shards[shard_index 1000 sample_controller.shard_count]?
        = some { shard with chain := shard.chain ++ [block] }) ∧
    (∀ j, j ≠ shard_index 1000 sample_controller.shard_count →
      sample_controller2.shards[j]? = sample_controller.shards[j]?) :=
  ⟨⟨⟨by decide, by decide, by decide⟩, by rfl⟩,
    route_packet_accepted sample_hasher 8 5 sample_controller sample_controller2 sample_disk
      (sample_saved ⟨[sample_genesis, sample_mined], 2, 1⟩ sample_disk) [] 1000 sample_vote
      (by decide) (by decide) (by decide) (by rfl)⟩

theorem Blockchain.add_block_of_mined (hasher : Str → Nat) (now : Int) (fuel : Nat)
    (bc : Blockchain) (disk disk1 : Disk) (packet : SecurePacket) (tip mined : Block)
    (ht : bc.chain.getLast? = some tip)
    (hm : (Block.new hasher now tip.block_hash packet).mine_block hasher fuel bc.difficulty
      = .ok mined)
    (hs : Blockchain.save_to_disk { bc with chain := bc.chain ++ [mined] } disk = .ok disk1) :
    bc.add_block hasher now fuel disk packet
      = .ok ({ bc with chain := bc.chain ++ [mined] }, disk1) := by
  unfold Blockchain.add_block
  simp only [ht, hm, bind, Except.bind, hs, pure, Except.pure]

/-- When the target shard's `add_block` returns, so does `route_packet`. -/
theorem ShardController.route_packet_of_add_block (hasher : Str → Nat) (now : Int) (fuel : Nat)
    (sc : ShardController) (disk disk1 : Disk) (voter_id : Int) (packet : SecurePacket)
    (shard shard1 : Blockchain) (hnew : voter_id ∉ sc.voted_ids)
    (hz : (sc.shard_count % 2 ^ 32).toNat ≠ 0)
    (hs : sc.shards[shard_index voter_id sc.shard_count]? = some shard)
    (ha : shard.add_block hasher now fuel disk packet = .ok (shard1, disk1)) :
    sc.route_packet hasher now fuel disk voter_id packet
      = .ok (⟨sc.shards.set (shard_index voter_id sc.shard_count) shard1,
          insert voter_id sc.voted_ids, sc.shard_count⟩, disk1, []) := by
  unfold ShardController.route_packet
  rw [if_neg hnew]
  dsimp only
  rw [if_neg hz]
  simp only [hs, ha, bind, Except.bind, pure, Except.pure]

/-! ### Tally -/

theorem tally_count_increment (content c : Str) (tally : List (Str × Nat)) :
    tally_count (tally_increment content tally) c
      = tally_count tally c + (if c = content then 1 else 0) := by
  induction tally with
  | nil =>
    by_cases h : c = content
    · simp [tally_increment, tally_count, h]
    · have h' : ¬ content = c := fun e => h e.symm
      simp [tally_increment, tally_count, h, h']
  | cons kv rest ih =>
    obtain ⟨k, v⟩ := kv
    unfold tally_count at ih ⊢
    by_cases hk : content = k
    · subst hk
      by_cases hc : c = content
      · subst hc
        simp [tally_increment]
      · have hc' : ¬ content = c := fun e => hc e.symm
        simp [tally_increment, hc, hc']
    · by_cases hkc : k = c
      · subst hkc
        have hk' : ¬ k = content := fun e => hk e.symm
        simp [tally_increment, hk, hk']
      · simp only [tally_increment, hk, if_false, List.find?_cons, hkc, decide_False]
        exact ih

theorem tally_block_count (tally tally1 : List (Str × Nat)) (block : Block) (c : Str)
    (h : tally_block tally block = .ok tally1) :
    tally_count tally1 c = tally_count tally c +
      (if c = "GENESIS_BLOCK".toList ∨ c = "GENESIS".toList then 0
        else count_content c [block]) := by
  unfold tally_block at h
  unfold count_content
  cases hg : block.packet.get_content with
  | error e => simp [hg, bind, Except.bind] at h
  | ok content =>
    simp only [hg, bind, Except.bind] at h
    by_cases hm : content = "GENESIS_BLOCK".toList ∨ content = "GENESIS".toList
    · rw [if_pos hm] at h
      cases h
      by_cases hc : c = "GENESIS_BLOCK".toList ∨ c = "GENESIS".toList
      · rw [if_pos hc]; rfl
      · rw [if_neg hc]
        have hne : ¬ content = c := fun e => hc (e ▸ hm)
        simp [List.countP_cons, hne, hg]
    · rw [if_neg hm] at h
      cases h
      rw [tally_count_increment]
      by_cases hc : c = "GENESIS_BLOCK".toList ∨ c = "GENESIS".toList
      · rw [if_pos hc]
        have hne : ¬ c = content := fun e => hm (e ▸ hc)
        simp [hne]
      · rw [if_neg hc]
        by_cases he : c = content
        · subst he
          simp [List.countP_cons, hg]
        · have he' : ¬ content = c := fun e => he e.symm
          simp [List.countP_cons, he, he', hg]

theorem tally_chain_count (c : Str) : ∀ (blocks : List Block) (tally tally1 : List (Str × Nat)),
    tally_chain blocks tally = .ok tally1 →
    tally_count tally1 c = tally_count tally c +
      (if c = "GENESIS_BLOCK".toList ∨ c = "GENESIS".toList then 0
        else count_content c blocks) := by
  intro blocks
  induction blocks with
  | nil =>
    intro tally tally1 h
    cases h
    simp [count_content]
  | cons b rest ih =>
    intro tally tally1 h
    unfold tally_chain at h
    cases hb : tally_block tally b with
    | error e => simp [hb, bind, Except.bind] at h
    | ok t =>
      simp only [hb, bind, Except.bind] at h
      rw [ih t tally1 h, tally_block_count tally t b c hb]
      by_cases hc : c = "GENESIS_BLOCK".toList ∨ c = "GENESIS".toList
      · simp only [if_pos hc]
      · simp only [if_neg hc, count_content, List.countP_cons, List.countP_nil]
        omega

theorem tally_shards_count (c : Str) :
    ∀ (shards : List Blockchain) (tally tally1 : List (Str × Nat)),
    tally_shards shards tally = .ok tally1 →
    tally_count tally1 c = tally_count tally c +
      (if c = "GENESIS_BLOCK".toList ∨ c = "GENESIS".toList then 0
        else (shards.map fun shard => count_content c shard.get_chain).sum) := by
  intro shards
  induction shards with
  | nil =>
    intro tally tally1 h
    cases h
    simp
  | cons s rest ih =>
    intro tally tally1 h
    unfold tally_shards at h
    cases hb : tally_chain s.get_chain tally with
    | error e => simp [hb, bind, Except.bind] at h
    | ok t =>
      simp only [hb, bind, Except.bind] at h
      rw [ih t tally1 h, tally_chain_count c s.get_chain tally t hb]
      by_cases hc : c = "GENESIS_BLOCK".toList ∨ c = "GENESIS".toList
      · simp only [if_pos hc]
      · simp only [if_neg hc, List.map_cons, List.sum_cons]
        omega

theorem ShardController.get_tally_eq_ok (sc : ShardController) (tally : List (Str × Nat))
    (h : sc.get_tally = .ok tally) :
    tally_shards sc.shards [] = .ok tally ∧ ∀ kv ∈ tally, kv.2 < 2 ^ 31 := by
  unfold ShardController.get_tally at h
  cases ht : tally_shards sc.shards [] with
  | error e => simp [ht, bind, Except.bind] at h
  | ok t =>
    simp only [ht, bind, Except.bind] at h
    split at h
    · rename_i hall
      cases h
      refine ⟨rfl, fun kv hkv => ?_⟩
      have := List.all_eq_true.mp hall kv hkv
      simpa using this
    · cases h

theorem count_content_tail (c : Str) (blocks : List Block)
    (hc : ¬ (c = "GENESIS_BLOCK".toList ∨ c = "GENESIS".toList))
    (hfirst : ∀ b, blocks.head? = some b →
      b.packet.get_content = .ok "GENESIS_BLOCK".toList ∨
      b.packet.get_content = .ok "GENESIS".toList) :
    count_content c blocks = count_content c blocks.tail := by
  cases blocks with
  | nil => rfl
  | cons b rest =>
    have hb := hfirst b rfl
    have hne : ¬ b.packet.get_content = .ok c := by
      intro e
      rw [e] at hb
      rcases hb with hb | hb
      · exact hc (Or.inl (by injection hb))
      · exact hc (Or.inr (by injection hb))
    simp [count_content, List.countP_cons, hne]

/-- C10 (as amended): in every controller state for which the tally is
defined, the two genesis markers have count 0, and every other candidate `c`
has as its count the number of blocks, over all shards and at every position,
whose `get_content()` equals `c`; when the first block of every shard decodes
to one of the two markers, that is the number of such blocks with each shard's
first block left out. -/
theorem tally_counts_blocks (sc : ShardController) (tally : List (Str × Nat)) (c : Str)
    (h : sc.get_tally = .ok tally) :
    ((c = "GENESIS_BLOCK".toList ∨ c = "GENESIS".toList) → tally_count tally c = 0) ∧
    (¬ (c = "GENESIS_BLOCK".toList ∨ c = "GENESIS".toList) →
      tally_count tally c = sc.blocks_for c ∧
      ((∀ shard ∈ sc.shards, ∀ b, shard.get_chain.head? = some b →
          b.packet.get_content = .ok "GENESIS_BLOCK".toList ∨
          b.packet.get_content = .ok "GENESIS".toList) →
        tally_count tally c = sc.votes_for c)) := by
  obtain ⟨ht, _⟩ := ShardController.get_tally_eq_ok sc tally h
  have hcount := tally_shards_count c sc.shards [] tally ht
  have h0 : tally_count [] c = 0 := rfl
  rw [h0, Nat.zero_add] at hcount
  refine ⟨fun hc => by rw [hcount, if_pos hc], fun hc => ?_⟩
  rw [if_neg hc] at hcount
  refine ⟨hcount, fun hfirst => ?_⟩
  rw [hcount]
  unfold ShardController.votes_for
  congr 1
  apply List.map_congr_left
  intro shard hs
  exact count_content_tail c shard.get_chain hc (hfirst shard hs)

set_option maxRecDepth 100000 in
/-- The count of C10 for the candidate `A` after one vote for `A`. -/
theorem tally_counts_blocks_witness :
    sample_controller2.get_tally = .ok [("A".toList, 1)] ∧
    ((("A".toList = "GENESIS_BLOCK".toList ∨ "A".toList = "GENESIS".toList) →
        tally_count [("A".toList, 1)] "A".toList = 0) ∧
      (¬ ("A".toList = "GENESIS_BLOCK".toList ∨ "A".toList = "GENESIS".toList) →
        tally_count [("A".toList, 1)] "A".toList = sample_controller2.blocks_for "A".toList ∧
        ((∀ shard ∈ sample_controller2.shards, ∀ b, shard.get_chain.head? = some b →
            b.packet.get_content = .ok "GENESIS_BLOCK".toList ∨
            b.packet.get_content = .ok "GENESIS".toList) →
          tally_count [("A".toList, 1)] "A".toList = sample_controller2.votes_for "A".toList))) :=
  ⟨by decide,
    tally_counts_blocks sample_controller2 [("A".toList, 1)] "A".toList (by decide)⟩

set_option maxRecDepth 100000 in
/-- C10 fails as stated: after voter 7 has voted for the candidate called
`GENESIS` on a fresh one-shard controller, the shard holds one block besides
its first whose `get_content()` is `GENESIS`, yet the tally is empty and so
gives that candidate the count 0. -/
theorem tally_skips_marker_votes :
    sample_single.route_packet sample_hasher 8 5 sample_disk 7 sample_vote_genesis
      = .ok (sample_single2,
          sample_saved ⟨[sample_genesis, sample_mined_genesis], 2, 0⟩ sample_disk, []) ∧
    sample_mined_genesis.packet.get_content = .ok "GENESIS".toList ∧
    sample_single2.votes_for "GENESIS".toList = 1 ∧
    sample_single2.get_tally = .ok [] ∧
    tally_count [] "GENESIS".toList = 0 :=
  ⟨by rfl, by decide, by decide, by decide, by decide⟩

/-- Each counter of a tally is at most the sum of all its counters. -/
theorem tally_entry_le_sum (tally : List (Str × Nat)) (kv : Str × Nat) (h : kv ∈ tally) :
    kv.2 ≤ (tally.map Prod.snd).sum := by
  induction tally with
  | nil => cases h
  | cons a rest ih =>
    rw [List.map_cons, List.sum_cons]
    rcases List.mem_cons.mp h with e | e
    · subst e; omega
    · have := ih e; omega

theorem tally_increment_sum (content : Str) (tally : List (Str × Nat)) :
    ((tally_increment content tally).map Prod.snd).sum = (tally.map Prod.snd).sum + 1 := by
  induction tally with
  | nil => simp [tally_increment]
  | cons kv rest ih =>
    obtain ⟨k, v⟩ := kv
    by_cases hk : content = k
    · simp [tally_increment, hk]; omega
    · simp only [tally_increment, hk, if_false, List.map_cons, List.sum_cons, ih]; omega

theorem tally_block_returns (tally : List (Str × Nat)) (block : Block)
    (h : NUL ∈ block.packet.data) :
    ∃ tally1, tally_block tally block = .ok tally1 ∧
      (tally1.map Prod.snd).sum ≤ (tally.map Prod.snd).sum + 1 := by
  unfold tally_block
  have hg : block.packet.get_content
      = .ok (block.packet.data.takeWhile fun c => c != NUL) := by
    unfold SecurePacket.get_content
    rw [if_pos h]
  simp only [hg, bind, Except.bind]
  split
  · exact ⟨tally, rfl, by omega⟩
  · exact ⟨_, rfl, by rw [tally_increment_sum]⟩

theorem tally_chain_returns : ∀ (blocks : List Block) (tally : List (Str × Nat)),
    (∀ b ∈ blocks, NUL ∈ b.packet.data) →
    ∃ tally1, tally_chain blocks tally = .ok tally1 ∧
      (tally1.map Prod.snd).sum ≤ (tally.map Prod.snd).sum + blocks.length := by
  intro blocks
  induction blocks with
  | nil => intro tally _; exact ⟨tally, rfl, by simp⟩
  | cons b rest ih =>
    intro tally h
    obtain ⟨t1, h1, hle1⟩ := tally_block_returns tally b (h b (by simp))
    obtain ⟨t2, h2, hle2⟩ := ih t1 (fun x hx => h x (by simp [hx]))
    refine ⟨t2, ?_, ?_⟩
    · unfold tally_chain
      simp only [h1, bind, Except.bind, h2]
    · rw [List.length_cons]; omega

theorem tally_shards_returns : ∀ (shards : List Blockchain) (tally : List (Str × Nat)),
    (∀ shard ∈ shards, ∀ b ∈ shard.chain, NUL ∈ b.packet.data) →
    ∃ tally1, tally_shards shards tally = .ok tally1 ∧
      (tally1.map Prod.snd).sum
        ≤ (tally.map Prod.snd).sum + (shards.map fun shard => shard.chain.length).sum := by
  intro shards
  induction shards with
  | nil => intro tally _; exact ⟨tally, rfl, by simp⟩
  | cons s rest ih =>
    intro tally h
    obtain ⟨t1, h1, hle1⟩ := tally_chain_returns s.chain tally (h s (by simp))
    obtain ⟨t2, h2, hle2⟩ := ih t1 (fun x hx => h x (by simp [hx]))
    refine ⟨t2, ?_, ?_⟩
    · unfold tally_shards Blockchain.get_chain
      simp only [h1, bind, Except.bind, h2]
    · rw [List.map_cons, List.sum_cons]; omega

/-- The tally is defined whenever every stored packet holds a delimiter and
the shards hold fewer than `2^31` blocks in all. -/
theorem ShardController.get_tally_returns (sc : ShardController)
    (hd : ∀ shard ∈ sc.shards, ∀ b ∈ shard.chain, NUL ∈ b.packet.data)
    (hn : (sc.shards.map fun shard => shard.chain.length).sum < 2 ^ 31) :
    ∃ tally, sc.get_tally = .ok tally := by
  obtain ⟨t, ht, hle⟩ := tally_shards_returns sc.shards [] hd
  refine ⟨t, ?_⟩
  unfold ShardController.get_tally
  simp only [ht, bind, Except.bind]
  have hall : (t.all fun kv => decide (kv.2 < 2 ^ 31)) = true := by
    rw [List.all_eq_true]
    intro kv hkv
    have h1 := tally_entry_le_sum t kv hkv
    have h2 : (List.map Prod.snd ([] : List (Str × Nat))).sum = 0 := rfl
    rw [h2] at hle
    exact decide_eq_true (by omega)
  rw [if_pos hall]
  rfl

/-! ### When the calls return -/

theorem serialize_blocks_returns : ∀ (blocks : List Block),
    (∀ b ∈ blocks, NUL ∈ b.packet.data) → ∃ s, serialize_blocks blocks = .ok s := by
  intro blocks
  induction blocks with
  | nil => intro _; exact ⟨[], rfl⟩
  | cons b rest ih =>
    intro h
    obtain ⟨r, hr⟩ := ih (fun x hx => h x (by simp [hx]))
    have hg : b.packet.get_content = .ok (b.packet.data.takeWhile fun c => c != NUL) := by
      unfold SecurePacket.get_content
      rw [if_pos (h b (by simp))]
    unfold serialize_blocks Block.serialize
    simp only [hg, hr, bind, Except.bind, pure, Except.pure]
    exact ⟨_, rfl⟩

theorem Blockchain.save_to_disk_returns (bc : Blockchain) (disk : Disk)
    (h : ∀ b ∈ bc.chain, NUL ∈ b.packet.data) : ∃ disk1, bc.save_to_disk disk = .ok disk1 := by
  obtain ⟨s, hs⟩ := serialize_blocks_returns bc.chain h
  unfold Blockchain.save_to_disk
  split
  · exact ⟨disk, rfl⟩
  · simp only [hs, bind, Except.bind, pure, Except.pure]
    exact ⟨_, rfl⟩

/-- On a non-empty ledger whose packets all hold a delimiter, `add_block` of a
packet that holds one returns as soon as mining does. -/
theorem Blockchain.add_block_returns (hasher : Str → Nat) (now : Int) (fuel : Nat)
    (bc : Blockchain) (disk : Disk) (packet : SecurePacket) (tip mined : Block)
    (ht : bc.chain.getLast? = some tip) (hd : ∀ b ∈ bc.chain, NUL ∈ b.packet.data)
    (hp : NUL ∈ packet.data)
    (hm : (Block.new hasher now tip.block_hash packet).mine_block hasher fuel bc.difficulty
      = .ok mined) :
    ∃ disk1, bc.add_block hasher now fuel disk packet
      = .ok ({ bc with chain := bc.chain ++ [mined] }, disk1) := by
  obtain ⟨_, hl⟩ := Block.mine_block_eq_ok hasher fuel _ mined bc.difficulty hm
  obtain ⟨_, _, _, _, hpk, _⟩ := Block.mine_loop_spec hasher _ fuel _ mined hl
  have hall : ∀ b ∈ bc.chain ++ [mined], NUL ∈ b.packet.data := by
    intro b hb
    rcases List.mem_append.mp hb with hb | hb
    · exact hd b hb
    · rw [List.mem_singleton] at hb
      subst hb
      rw [hpk]
      exact hp
  obtain ⟨disk1, hs⟩ :=
    Blockchain.save_to_disk_returns { bc with chain := bc.chain ++ [mined] } disk hall
  exact ⟨disk1, Blockchain.add_block_of_mined hasher now fuel bc disk disk1 packet tip mined
    ht hm hs⟩

/-- A packet made by the constructor from a payload shorter than the capacity
holds a delimiter. -/
theorem SecurePacket.new_delimited (p : Str) (rand : Nat → Nat) (pkt : SecurePacket)
    (hlen : p.length < PACKET_SIZE) (h : SecurePacket.new p rand = .ok pkt) :
    NUL ∈ pkt.data := by
  unfold SecurePacket.new at h
  have hle : ¬ p.length > PACKET_SIZE := by omega
  rw [dif_neg hle] at h
  cases h
  obtain ⟨rest, hrest⟩ := SecurePacket.fill_eq_of_lt p rand hlen
  show NUL ∈ SecurePacket.fill p rand
  rw [hrest]
  simp

/-! ### Hash self-consistency -/

theorem Block.calculate_hash_eq (hasher : Str → Nat) (b : Block) :
    b.calculate_hash hasher = sha256 hasher b.hash_input := rfl

/-- The nonce after the mining loop is the nonce before it plus the number of
iterations, modulo `2^64`. -/
theorem Block.mine_loop_nonce (hasher : Str → Nat) (d : Nat) :
    ∀ (fuel : Nat) (b b' : Block), b.nonce < 2 ^ 64 →
      Block.mine_loop hasher d fuel b = .ok b' →
      ∃ k, k ≤ fuel ∧ b'.nonce = (b.nonce + k) % 2 ^ 64 := by
  intro fuel
  induction fuel with
  | zero =>
    intro b b' hn h
    unfold Block.mine_loop at h
    split at h
    · cases h
    · cases h
      exact ⟨0, Nat.le_refl 0, by omega⟩
  | succ n ih =>
    intro b b' hn h
    unfold Block.mine_loop at h
    split at h
    · obtain ⟨k, hk, he⟩ := ih _ b' (Nat.mod_lt _ (by decide)) h
      refine ⟨k + 1, by omega, ?_⟩
      rw [he]
      show ((b.nonce + 1) % 2 ^ 64 + k) % 2 ^ 64 = (b.nonce + (k + 1)) % 2 ^ 64
      omega
    · cases h
      exact ⟨0, Nat.zero_le _, by omega⟩

/-- C15 (as amended): a block made by the constructor has nonce 0 and a
`block_hash` equal to its `calculate_hash()`; and when `mine_block(d)` returns
on a block whose `block_hash` equals its `calculate_hash()`, that still holds,
`previous_hash`, `timestamp`, `data_hash` and `packet` are unchanged, and the
nonce is the old nonce plus the number `k` of loop iterations modulo `2^64`,
hence not smaller than before when `nonce + k < 2^64`. -/
theorem block_hash_consistent (hasher : Str → Nat) (fuel : Nat) (b b' : Block) (d : Int)
    (hb : b.block_hash = b.calculate_hash hasher) (hn : b.nonce < 2 ^ 64)
    (hm : b.mine_block hasher fuel d = .ok b') :
    (∀ (now : Int) (prev : Str) (pkt : SecurePacket),
      (Block.new hasher now prev pkt).nonce = 0 ∧
      (Block.new hasher now prev pkt).block_hash
        = (Block.new hasher now prev pkt).calculate_hash hasher) ∧
    b'.block_hash = b'.calculate_hash hasher ∧
    b'.previous_hash = b.previous_hash ∧ b'.timestamp = b.timestamp ∧
    b'.data_hash = b.data_hash ∧ b'.packet = b.packet ∧
    ∃ k, k ≤ fuel ∧ b'.nonce = (b.nonce + k) % 2 ^ 64 ∧
      (b.nonce + k < 2 ^ 64 → b.nonce ≤ b'.nonce) := by
  obtain ⟨_, hl⟩ := Block.mine_block_eq_ok hasher fuel b b' d hm
  obtain ⟨_, h2, h3, h4, h5, h6⟩ := Block.mine_loop_spec hasher d.toNat fuel b b' hl
  obtain ⟨k, hk, he⟩ := Block.mine_loop_nonce hasher d.toNat fuel b b' hn hl
  refine ⟨fun now prev pkt => ⟨rfl, rfl⟩, h6 hb, h2, h3, h4, h5, k, hk, he, fun hlt => ?_⟩
  rw [he, Nat.mod_eq_of_lt hlt]
  omega

set_option maxRecDepth 100000 in
/-- The consistency of C15 on the mining run that takes the block of the
sample chain from nonce 0 to nonce 1. -/
theorem block_hash_consistent_witness :
    ((Block.new sample_hasher 8 sample_genesis.block_hash sample_vote).block_hash
        = (Block.new sample_hasher 8 sample_genesis.block_hash sample_vote).calculate_hash
            sample_hasher ∧
      (Block.new sample_hasher 8 sample_genesis.block_hash sample_vote).nonce < 2 ^ 64 ∧
      (Block.new sample_hasher 8 sample_genesis.block_hash sample_vote).mine_block
        sample_hasher 5 2 = .ok sample_mined) ∧
    (∀ (now : Int) (prev : Str) (pkt : SecurePacket),
      (Block.new sample_hasher now prev pkt).nonce = 0 ∧
      (Block.new sample_hasher now prev pkt).block_hash
        = (Block.new sample_hasher now prev pkt).calculate_hash sample_hasher) ∧
    sample_mined.block_hash = sample_mined.calculate_hash sample_hasher ∧
    sample_mined.previous_hash
      = (Block.new sample_hasher 8 sample_genesis.block_hash sample_vote).previous_hash ∧
    sample_mined.timestamp
      = (Block.new sample_hasher 8 sample_genesis.block_hash sample_vote).timestamp ∧
    sample_mined.data_hash
      = (Block.new sample_hasher 8 sample_genesis.block_hash sample_vote).data_hash ∧
    sample_mined.packet
      = (Block.new sample_hasher 8 sample_genesis.block_hash sample_vote).packet ∧
    ∃ k, k ≤ 5 ∧ sample_mined.nonce
        = ((Block.new sample_hasher 8 sample_genesis.block_hash sample_vote).nonce + k) % 2 ^ 64 ∧
      ((Block.new sample_hasher 8 sample_genesis.block_hash sample_vote).nonce + k < 2 ^ 64 →
        (Block.new sample_hasher 8 sample_genesis.block_hash sample_vote).nonce
          ≤ sample_mined.nonce) :=
  ⟨⟨by decide, by decide, by decide⟩,
    block_hash_consistent sample_hasher 5
      (Block.new sample_hasher 8 sample_genesis.block_hash sample_vote) sample_mined 2
      (by decide) (by decide) (by decide)⟩

set_option maxRecDepth 100000 in
/-- C15 fails as stated: a block whose nonce is `2^64 - 1` and whose
`block_hash` equals its `calculate_hash()` is mined in one iteration, in which
the nonce wraps to 0, so the nonce after `mine_block(2)` is smaller than before. -/
theorem mined_nonce_wraps :
    sample_last_nonce.block_hash = sample_last_nonce.calculate_hash wrap_hasher ∧
    sample_last_nonce.nonce = 2 ^ 64 - 1 ∧
    sample_last_nonce.mine_block wrap_hasher 1 2
      = .ok { sample_last_nonce with nonce := 0, block_hash := "0000000000000000".toList } ∧
    (0 : Nat) < sample_last_nonce.nonce := by
  decide

/-! ### Validation and the stored packet -/

theorem Blockchain.valid_of_agree (hasher : Str → Nat) (bc1 bc2 : Blockchain)
    (hlen : bc1.chain.length = bc2.chain.length)
    (hagree : ∀ (i : Nat) (b1 b2 : Block), bc1.chain[i]? = some b1 → bc2.chain[i]? = some b2 →
      b1.previous_hash = b2.previous_hash ∧ b1.timestamp = b2.timestamp ∧
      b1.data_hash = b2.data_hash ∧ b1.nonce = b2.nonce ∧ b1.block_hash = b2.block_hash)
    (hv : bc1.is_chain_valid hasher = true) : bc2.is_chain_valid hasher = true := by
  rw [Blockchain.valid_tests] at hv ⊢
  intro i h1 h2 current previous hc hp
  have h2' : i < bc1.chain.length := by omega
  have h3' : i - 1 < bc1.chain.length := by omega
  obtain ⟨a1, a2, a3, a4, a5⟩ := hagree i bc1.chain[i] current (List.getElem?_eq_getElem h2') hc
  obtain ⟨p1, p2, p3, p4, p5⟩ :=
    hagree (i - 1) bc1.chain[i - 1] previous (List.getElem?_eq_getElem h3') hp
  obtain ⟨e1, e2⟩ := hv i h1 h2' bc1.chain[i] bc1.chain[i - 1]
    (List.getElem?_eq_getElem h2') (List.getElem?_eq_getElem h3')
  refine ⟨by rw [← p5, e1, a1], ?_⟩
  rw [← a5, e2]
  unfold Block.calculate_hash
  rw [a1, a2, a3, a4]

theorem length_replace_packet_at (pkt : SecurePacket) :
    ∀ (blocks : List Block) (i : Nat), (replace_packet_at i pkt blocks).length = blocks.length := by
  intro blocks
  induction blocks with
  | nil => intro i; cases i <;> rfl
  | cons b rest ih =>
    intro i
    cases i with
    | zero => rfl
    | succ i => simp [replace_packet_at, ih]

theorem replace_packet_at_agree (pkt : SecurePacket) :
    ∀ (blocks : List Block) (i j : Nat) (b1 b2 : Block),
      blocks[j]? = some b1 → (replace_packet_at i pkt blocks)[j]? = some b2 →
      b1.previous_hash = b2.previous_hash ∧ b1.timestamp = b2.timestamp ∧
      b1.data_hash = b2.data_hash ∧ b1.nonce = b2.nonce ∧ b1.block_hash = b2.block_hash := by
  intro blocks
  induction blocks with
  | nil => intro i j b1 b2 h1; simp at h1
  | cons b rest ih =>
    intro i j b1 b2 h1 h2
    cases i with
    | zero =>
      cases j with
      | zero =>
        simp only [replace_packet_at, List.getElem?_cons_zero, Option.some.injEq] at h1 h2
        subst h1
        subst h2
        exact ⟨rfl, rfl, rfl, rfl, rfl⟩
      | succ j =>
        simp only [replace_packet_at, List.getElem?_cons_succ] at h1 h2
        rw [h1] at h2
        cases h2
        exact ⟨rfl, rfl, rfl, rfl, rfl⟩
    | succ i =>
      cases j with
      | zero =>
        simp only [replace_packet_at, List.getElem?_cons_zero, Option.some.injEq] at h1 h2
        subst h1
        subst h2
        exact ⟨rfl, rfl, rfl, rfl, rfl⟩
      | succ j =>
        simp only [replace_packet_at, List.getElem?_cons_succ] at h1 h2
        exact ih i j b1 b2 h1 h2

/-- C18: `is_chain_valid()` gives the same result on two chains of equal
length that agree, block by block, on `previous_hash`, `timestamp`,
`data_hash`, `nonce` and `block_hash`, whatever their packets; hence replacing
the packet of any block of a chain leaves the result of `is_chain_valid()` as
it was. -/
theorem valid_ignores_packets (hasher : Str → Nat) (bc1 bc2 : Blockchain)
    (hlen : bc1.get_size = bc2.get_size)
    (hagree : ∀ (i : Nat) (b1 b2 : Block), bc1.get_chain[i]? = some b1 → bc2.get_chain[i]? = some b2 →
      b1.previous_hash = b2.previous_hash ∧ b1.timestamp = b2.timestamp ∧
      b1.data_hash = b2.data_hash ∧ b1.nonce = b2.nonce ∧ b1.block_hash = b2.block_hash) :
    bc1.is_chain_valid hasher = bc2.is_chain_valid hasher ∧
    ∀ (i : Nat) (pkt : SecurePacket),
      Blockchain.is_chain_valid hasher
          { bc1 with chain := replace_packet_at i pkt bc1.get_chain }
        = bc1.is_chain_valid hasher := by
  have key : ∀ (x y : Blockchain), x.chain.length = y.chain.length →
      (∀ (i : Nat) (b1 b2 : Block), x.chain[i]? = some b1 → y.chain[i]? = some b2 →
        b1.previous_hash = b2.previous_hash ∧ b1.timestamp = b2.timestamp ∧
        b1.data_hash = b2.data_hash ∧ b1.nonce = b2.nonce ∧ b1.block_hash = b2.block_hash) →
      x.is_chain_valid hasher = y.is_chain_valid hasher := by
    intro x y hl ha
    have hsymm : ∀ (i : Nat) (b1 b2 : Block), y.chain[i]? = some b1 → x.chain[i]? = some b2 →
        b1.previous_hash = b2.previous_hash ∧ b1.timestamp = b2.timestamp ∧
        b1.data_hash = b2.data_hash ∧ b1.nonce = b2.nonce ∧ b1.block_hash = b2.block_hash := by
      intro i b1 b2 h1 h2
      obtain ⟨a1, a2, a3, a4, a5⟩ := ha i b2 b1 h2 h1
      exact ⟨a1.symm, a2.symm, a3.symm, a4.symm, a5.symm⟩
    cases hx : x.is_chain_valid hasher with
    | true => exact (Blockchain.valid_of_agree hasher x y hl ha hx).symm
    | false =>
      cases hy : y.is_chain_valid hasher with
      | false => rfl
      | true =>
        have := Blockchain.valid_of_agree hasher y x hl.symm hsymm hy
        rw [hx] at this
        cases this
  refine ⟨key bc1 bc2 hlen hagree, fun i pkt => (key bc1 _ ?_ ?_).symm⟩
  · exact (length_replace_packet_at pkt bc1.chain i).symm
  · intro j b1 b2 h1 h2
    exact replace_packet_at_agree pkt bc1.chain i j b1 b2 h1 h2

set_option maxRecDepth 100000 in
/-- The independence of C18 on the valid two-block sample chain and the chain
that differs from it only in the packet of its second block, a vote for
`GENESIS` in place of the vote for `A`. -/
theorem valid_ignores_packets_witness :
    (sample_chain2.is_chain_valid sample_hasher = true ∧
      sample_vote_genesis ≠ sample_vote ∧
      sample_chain2.get_size
        = (⟨[sample_genesis, { sample_mined with packet := sample_vote_genesis }], 2, 0⟩ :
            Blockchain).get_size) ∧
    (sample_chain2.is_chain_valid sample_hasher
      = Blockchain.is_chain_valid sample_hasher
          ⟨[sample_genesis, { sample_mined with packet := sample_vote_genesis }], 2, 0⟩ ∧
    ∀ (i : Nat) (pkt : SecurePacket),
      Blockchain.is_chain_valid sample_hasher
          { sample_chain2 with chain := replace_packet_at i pkt sample_chain2.get_chain }
        = sample_chain2.is_chain_valid sample_hasher) :=
  ⟨⟨by decide, by decide, by decide⟩,
    valid_ignores_packets sample_hasher sample_chain2
      ⟨[sample_genesis, { sample_mined with packet := sample_vote_genesis }], 2, 0⟩
      (by decide)
      (by
        intro i b1 b2 h1 h2
        match i with
        | 0 =>
          simp only [Blockchain.get_chain, sample_chain2, List.getElem?_cons_zero,
            Option.some.injEq] at h1 h2
          subst h1; subst h2
          exact ⟨rfl, rfl, rfl, rfl, rfl⟩
        | 1 =>
          simp only [Blockchain.get_chain, sample_chain2, List.getElem?_cons_succ,
            List.getElem?_cons_zero, Option.some.injEq] at h1 h2
          subst h1; subst h2
          exact ⟨rfl, rfl, rfl, rfl, rfl⟩
        | k + 2 =>
          simp [Blockchain.get_chain, sample_chain2] at h1)⟩

/-! ### The text that is hashed -/

/-- Two blocks with the same `previous_hash`, data hashes of equal length and
the same nonce feed equal texts to the hash only when their timestamps are
written alike and their data hashes are equal. -/
theorem Block.hash_input_split (b1 b2 : Block) (hp : b1.previous_hash = b2.previous_hash)
    (hd : b1.data_hash.length = b2.data_hash.length) (hn : b1.nonce = b2.nonce)
    (h : b1.hash_input = b2.hash_input) :
    decimal b1.timestamp = decimal b2.timestamp ∧ b1.data_hash = b2.data_hash := by
  unfold Block.hash_input at h
  rw [hp, hn, List.append_assoc, List.append_assoc, List.append_assoc, List.append_assoc] at h
  have h1 := List.append_cancel_left h
  rw [← List.append_assoc, ← List.append_assoc] at h1
  have h2 := List.append_cancel_right h1
  have hl := congrArg List.length h2
  rw [List.length_append, List.length_append, hd] at hl
  exact List.append_inj h2 (by omega)

set_option maxRecDepth 100000 in
/-- C20 (as amended): `calculate_hash` hashes the concatenation of
`previous_hash`, the decimal timestamp, `data_hash` and the decimal nonce with
no separators, and two blocks that differ in timestamp, `data_hash` and nonce,
both with a 16-hex-character `previous_hash` and `data_hash`, feed it the same
text and so have equal `calculate_hash()` for every hash function: timestamp 1,
data hash `2000000000000000`, nonce 10 and timestamp 12, data hash
`0000000000000001`, nonce 0, with the same `previous_hash`. -/
theorem hash_input_ambiguous :
    (collide_a.timestamp = 1 ∧ collide_a.data_hash = "2000000000000000".toList ∧
      collide_a.nonce = 10) ∧
    (collide_b.timestamp = 12 ∧ collide_b.data_hash = "0000000000000001".toList ∧
      collide_b.nonce = 0) ∧
    collide_a.previous_hash = collide_b.previous_hash ∧
    is_hex16 collide_a.previous_hash ∧ is_hex16 collide_a.data_hash ∧
    is_hex16 collide_b.data_hash ∧
    collide_a.hash_input = collide_b.hash_input ∧
    ∀ hasher : Str → Nat, collide_a.calculate_hash hasher = collide_b.calculate_hash hasher := by
  have hin : collide_a.hash_input = collide_b.hash_input := by decide
  refine ⟨by decide, by decide, by decide, ⟨by decide, by decide⟩, ⟨by decide, by decide⟩,
    ⟨by decide, by decide⟩, hin, fun hasher => ?_⟩
  rw [Block.calculate_hash_eq, Block.calculate_hash_eq, hin]

set_option maxRecDepth 100000 in
/-- C20 fails on the pair it names: with timestamp 1, data hash
`2000000000000000`, nonce 0 the hashed text ends in 18 characters after the
`previous_hash`, with timestamp 12, data hash `0000000000000000`, nonce 0 in
19, so the two texts differ, and a hash function that tells them apart gives
the two blocks different `calculate_hash()`. -/
theorem claimed_pair_does_not_collide :
    claimed_a.previous_hash = claimed_b.previous_hash ∧
    is_hex16 claimed_a.previous_hash ∧ is_hex16 claimed_a.data_hash ∧
    is_hex16 claimed_b.data_hash ∧
    claimed_a.hash_input = "00000000000000aa120000000000000000".toList ∧
    claimed_b.hash_input = "00000000000000aa1200000000000000000".toList ∧
    claimed_a.hash_input ≠ claimed_b.hash_input ∧
    claimed_a.calculate_hash (fun s => s.length)
      ≠ claimed_b.calculate_hash (fun s => s.length) := by
  refine ⟨by decide, ⟨by decide, by decide⟩, ⟨by decide, by decide⟩, ⟨by decide, by decide⟩,
    by decide, by decide, by decide, by decide⟩

/-! ### The identity mixing function -/

theorem mix_eq_steps (voter_id : Int) :
    mix voter_id
      = xorshift16 (mul_step (xorshift16 (mul_step (xorshift16 (voter_id % 2 ^ 32).toNat)))) :=
  rfl

theorem xorshift16_lt (x : Nat) (h : x < 2 ^ 32) : xorshift16 x < 2 ^ 32 := by
  unfold xorshift16
  apply Nat.xor_lt_two_pow _ h
  rw [Nat.shiftRight_eq_div_pow]
  exact Nat.lt_of_le_of_lt (Nat.div_le_self _ _) h

theorem xorshift16_involutive (x : Nat) (h : x < 2 ^ 32) : xorshift16 (xorshift16 x) = x := by
  unfold xorshift16
  apply Nat.eq_of_testBit_eq
  intro i
  have hhigh : x.testBit (16 + (16 + i)) = false := by
    apply Nat.testBit_lt_two_pow
    exact Nat.lt_of_lt_of_le h (Nat.pow_le_pow_right (by decide) (by omega))
  simp only [Nat.testBit_xor, Nat.testBit_shiftRight, hhigh]
  cases x.testBit (16 + i) <;> cases x.testBit i <;> rfl

theorem mul_step_lt (x : Nat) : mul_step x < 2 ^ 32 := Nat.mod_lt _ (by decide)

theorem mul_back_lt (x : Nat) : mul_back x < 2 ^ 32 := Nat.mod_lt _ (by decide)

theorem mul_back_mul_step (x : Nat) (h : x < 2 ^ 32) : mul_back (mul_step x) = x := by
  unfold mul_back mul_step
  omega

theorem mul_step_mul_back (x : Nat) (h : x < 2 ^ 32) : mul_step (mul_back x) = x := by
  unfold mul_back mul_step
  omega

theorem unmix_mix (voter_id : Int) : unmix (mix voter_id) = (voter_id % 2 ^ 32).toNat := by
  have h0 : (voter_id % 2 ^ 32).toNat < 2 ^ 32 := by
    have := Int.emod_lt_of_pos voter_id (show (0 : Int) < 2 ^ 32 by decide)
    omega
  rw [mix_eq_steps]
  unfold unmix
  rw [xorshift16_involutive _ (mul_step_lt _), mul_back_mul_step _ (xorshift16_lt _ (mul_step_lt _)),
    xorshift16_involutive _ (mul_step_lt _), mul_back_mul_step _ (xorshift16_lt _ h0),
    xorshift16_involutive _ h0]

theorem mix_unmix (y : Nat) (h : y < 2 ^ 32) : mix (unmix y : Int) = y := by
  have hu : unmix y < 2 ^ 32 := xorshift16_lt _ (mul_back_lt _)
  have hcast : ((unmix y : Int) % 2 ^ 32).toNat = unmix y := by omega
  rw [mix_eq_steps, hcast]
  unfold unmix
  rw [xorshift16_involutive _ (mul_back_lt _), mul_step_mul_back _ (xorshift16_lt _ (mul_back_lt _)),
    xorshift16_involutive _ (mul_back_lt _), mul_step_mul_back _ (xorshift16_lt _ h),
    xorshift16_involutive _ h]

/-- C19: the mixing of `route_packet` is a bijection on 32-bit values: its
results are 32-bit, two voter ids with the same result have the same 32-bit
unsigned conversion (so two different `int` ids never collide before the
reduction modulo `shard_count`), and every 32-bit value is the result for
some 32-bit value. -/
theorem mix_bijective :
    (∀ a : Int, mix a < 2 ^ 32) ∧
    (∀ a b : Int, mix a = mix b → a % 2 ^ 32 = b % 2 ^ 32) ∧
    (∀ a b : Int, -2 ^ 31 ≤ a → a < 2 ^ 31 → -2 ^ 31 ≤ b → b < 2 ^ 31 →
      mix a = mix b → a = b) ∧
    (∀ x y : Nat, x < 2 ^ 32 → y < 2 ^ 32 → mix (x : Int) = mix (y : Int) → x = y) ∧
    (∀ y : Nat, y < 2 ^ 32 → ∃ x : Nat, x < 2 ^ 32 ∧ mix (x : Int) = y) := by
  have hinj : ∀ a b : Int, mix a = mix b → a % 2 ^ 32 = b % 2 ^ 32 := by
    intro a b h
    have h1 := unmix_mix a
    have h2 := unmix_mix b
    rw [h] at h1
    have ha := Int.emod_nonneg a (show (2 : Int) ^ 32 ≠ 0 by decide)
    have hb := Int.emod_nonneg b (show (2 : Int) ^ 32 ≠ 0 by decide)
    omega
  refine ⟨fun a => ?_, hinj, fun a b ha1 ha2 hb1 hb2 h => ?_, fun x y hx hy h => ?_,
    fun y hy => ⟨unmix y, xorshift16_lt _ (mul_back_lt _), mix_unmix y hy⟩⟩
  · rw [mix_eq_steps]
    exact xorshift16_lt _ (mul_step_lt _)
  · have := hinj a b h
    omega
  · have := hinj x y h
    omega

/-! ### The fresh ledger -/

/-- What the constructor makes of a payload that is shorter than the capacity
and holds no NUL. -/
theorem SecurePacket.newD_spec (p : Str) (rand : Nat → Nat) (hlen : p.length < PACKET_SIZE)
    (hnul : NUL ∉ p) :
    SecurePacket.new p rand = .ok (SecurePacket.newD p rand) ∧
    (SecurePacket.newD p rand).get_content = .ok p ∧
    NUL ∈ (SecurePacket.newD p rand).data := by
  have hle : ¬ p.length > PACKET_SIZE := by omega
  have hnew : SecurePacket.new p rand
      = .ok ⟨SecurePacket.fill p rand, SecurePacket.length_fill p rand hle⟩ := by
    simp only [SecurePacket.new, hle, dite_false]
  have hD : SecurePacket.newD p rand
      = ⟨SecurePacket.fill p rand, SecurePacket.length_fill p rand hle⟩ := by
    unfold SecurePacket.newD
    rw [hnew]
  obtain ⟨rest, hrest⟩ := SecurePacket.fill_eq_of_lt p rand hlen
  rw [hD]
  refine ⟨hnew, SecurePacket.get_content_of_data _ p rest hrest hnul, ?_⟩
  show NUL ∈ SecurePacket.fill p rand
  rw [hrest]
  simp

theorem genesis_block_spec (hasher : Str → Nat) (now : Int) (rand : Nat → Nat) :
    (genesis_block hasher now rand).previous_hash = "0".toList ∧
    (genesis_block hasher now rand).nonce = 0 ∧
    (genesis_block hasher now rand).timestamp = now ∧
    (genesis_block hasher now rand).packet.get_content = .ok "GENESIS_BLOCK".toList ∧
    NUL ∈ (genesis_block hasher now rand).packet.data := by
  obtain ⟨_, h2, h3⟩ :=
    SecurePacket.newD_spec "GENESIS_BLOCK".toList rand (by decide) (by decide)
  exact ⟨rfl, rfl, rfl, h2, h3⟩

/-- When there is no shard file, or the file holds the block count 0,
`load_from_disk` leaves the chain empty. -/
theorem Blockchain.load_nothing (hasher : Str → Nat) (now : Nat → Int)
    (rand : Nat → Nat → Nat) (disk : Disk) (id : Int)
    (hfile : disk.file (Blockchain.get_filename ⟨[], 2, id⟩) = none ∨
      ∃ bytes rest, disk.file (Blockchain.get_filename ⟨[], 2, id⟩) = some bytes ∧
        read_size_t bytes = some (0, rest)) :
    Blockchain.load_from_disk hasher now rand ⟨[], 2, id⟩ disk = .ok ⟨[], 2, id⟩ := by
  unfold Blockchain.load_from_disk
  rcases hfile with h | ⟨bytes, rest, h, hr⟩
  · rw [h]
  · rw [h]
    simp only [hr]
    rfl

/-- On the genesis path the constructor returns. -/
theorem Blockchain.new_fresh_returns (hasher : Str → Nat) (now : Nat → Int)
    (rand : Nat → Nat → Nat) (disk : Disk) (id : Int)
    (hload : Blockchain.load_from_disk hasher now rand ⟨[], 2, id⟩ disk = .ok ⟨[], 2, id⟩) :
    ∃ disk1, Blockchain.new hasher now rand disk id
      = .ok (⟨[genesis_block hasher (now 0) (rand 0)], 2, id⟩, disk1) := by
  obtain ⟨hpk, _, hdel⟩ :=
    SecurePacket.newD_spec "GENESIS_BLOCK".toList (rand 0) (by decide) (by decide)
  obtain ⟨disk1, hs⟩ := Blockchain.save_to_disk_returns
    ⟨[genesis_block hasher (now 0) (rand 0)], 2, id⟩ disk (by
      intro b hb
      rw [List.mem_singleton] at hb
      subst hb
      exact hdel)
  refine ⟨disk1, ?_⟩
  unfold Blockchain.new
  simp only [hload, hpk, bind, Except.bind, List.isEmpty_nil, if_true, List.nil_append]
  exact (by rw [show Block.new hasher (now 0) "0".toList
      (SecurePacket.newD "GENESIS_BLOCK".toList (rand 0)) = genesis_block hasher (now 0) (rand 0)
      from rfl, hs]; rfl)

theorem tally_chain_fresh (hasher : Str → Nat) (bc : Blockchain) (h : bc.is_fresh hasher)
    (tally : List (Str × Nat)) : tally_chain bc.get_chain tally = .ok tally := by
  obtain ⟨now, rand, hc⟩ := h
  obtain ⟨_, _, _, hg, _⟩ := genesis_block_spec hasher now rand
  unfold Blockchain.get_chain
  rw [hc]
  simp only [tally_chain, tally_block, hg, bind, Except.bind, true_or, if_true, pure,
    Except.pure]

theorem tally_shards_fresh (hasher : Str → Nat) : ∀ (shards : List Blockchain),
    (∀ shard ∈ shards, shard.is_fresh hasher) → ∀ tally, tally_shards shards tally = .ok tally := by
  intro shards
  induction shards with
  | nil => intro _ tally; rfl
  | cons s rest ih =>
    intro h tally
    unfold tally_shards
    rw [tally_chain_fresh hasher s (h s (by simp)) tally]
    exact ih (fun x hx => h x (by simp [hx])) tally

/-- C14: when no persisted chain exists, or the persisted chain has zero
blocks, the `Blockchain` constructor returns a ledger with `get_size() == 1`
whose sole block has `previous_hash` `"0"`, nonce 0 and decoded content
`GENESIS_BLOCK`; and a controller whose shards are all such ledgers has an
empty tally. -/
theorem fresh_ledger_is_genesis (hasher : Str → Nat) (now : Nat → Int)
    (rand : Nat → Nat → Nat) (disk : Disk) (id : Int)
    (hfile : disk.file (Blockchain.get_filename ⟨[], 2, id⟩) = none ∨
      ∃ bytes rest, disk.file (Blockchain.get_filename ⟨[], 2, id⟩) = some bytes ∧
        read_size_t bytes = some (0, rest)) :
    (∃ bc disk1, Blockchain.new hasher now rand disk id = .ok (bc, disk1) ∧
      bc.get_size = 1 ∧ bc.is_fresh hasher ∧
      ∃ g, bc.get_chain = [g] ∧ g.previous_hash = "0".toList ∧ g.nonce = 0 ∧
        g.packet.get_content = .ok "GENESIS_BLOCK".toList) ∧
    ∀ sc : ShardController, (∀ shard ∈ sc.shards, shard.is_fresh hasher) →
      sc.get_tally = .ok [] := by
  have hload := Blockchain.load_nothing hasher now rand disk id hfile
  obtain ⟨disk1, hnew⟩ := Blockchain.new_fresh_returns hasher now rand disk id hload
  obtain ⟨h1, h2, _, h4, _⟩ := genesis_block_spec hasher (now 0) (rand 0)
  refine ⟨⟨_, disk1, hnew, rfl, ⟨now 0, rand 0, rfl⟩, _, rfl, h1, h2, h4⟩, fun sc hsc => ?_⟩
  unfold ShardController.get_tally
  rw [tally_shards_fresh hasher sc.shards hsc []]
  rfl

set_option maxRecDepth 100000 in
/-- The fresh ledger of C14 for shard 0 on a disk with no files, and on a disk
whose file for shard 0 holds the block count 0. -/
theorem fresh_ledger_is_genesis_witness :
    (sample_disk.file (Blockchain.get_filename ⟨[], 2, 0⟩) = none ∧
      Blockchain.new sample_hasher (fun _ => 7) (fun _ => sample_rand) sample_disk 0
        = .ok (sample_chain, sample_saved sample_chain sample_disk) ∧
      Blockchain.new sample_hasher (fun _ => 7) (fun _ => sample_rand)
          (sample_disk.write "shard_0.dat".toList (size_t_bytes 0)) 0
        = .ok (sample_chain,
            sample_saved sample_chain (sample_disk.write "shard_0.dat".toList (size_t_bytes 0))) ∧
      sample_controller.get_tally = .ok []) ∧
    ((∃ bc disk1, Blockchain.new sample_hasher (fun _ => 7) (fun _ => sample_rand) sample_disk 0
        = .ok (bc, disk1) ∧
      bc.get_size = 1 ∧ bc.is_fresh sample_hasher ∧
      ∃ g, bc.get_chain = [g] ∧ g.previous_hash = "0".toList ∧ g.nonce = 0 ∧
        g.packet.get_content = .ok "GENESIS_BLOCK".toList) ∧
    ∀ sc : ShardController, (∀ shard ∈ sc.shards, shard.is_fresh sample_hasher) →
      sc.get_tally = .ok []) :=
  ⟨⟨by rfl, by rfl, by rfl, by decide⟩,
    fresh_ledger_is_genesis sample_hasher (fun _ => 7) (fun _ => sample_rand) sample_disk 0
      (Or.inl (by rfl))⟩

/-! ### Controllers and their runs -/

theorem ShardController.build_length (hasher : Str → Nat) (now : Nat → Nat → Int)
    (rand : Nat → Nat → Nat → Nat) :
    ∀ (n i : Nat) (disk disk1 : Disk) (shards : List Blockchain),
      ShardController.build hasher now rand n i disk = .ok (shards, disk1) →
      shards.length = n := by
  intro n
  induction n with
  | zero =>
    intro i disk disk1 shards h
    unfold ShardController.build at h
    cases h
    rfl
  | succ n ih =>
    intro i disk disk1 shards h
    unfold ShardController.build at h
    cases hb : Blockchain.new hasher (now i) (rand i) disk i with
    | error e => rw [hb] at h; cases h
    | ok r =>
      obtain ⟨bc, d1⟩ := r
      rw [hb] at h
      simp only [bind, Except.bind] at h
      cases hr : ShardController.build hasher now rand n (i + 1) d1 with
      | error e => rw [hr] at h; cases h
      | ok r2 =>
        obtain ⟨rest, d2⟩ := r2
        rw [hr] at h
        simp only [pure, Except.pure, Except.ok.injEq, Prod.mk.injEq] at h
        obtain ⟨hs, _⟩ := h
        subst hs
        rw [List.length_cons, ih (i + 1) d1 d2 rest hr]

/-- The controller the constructor returns. -/
theorem ShardController.new_spec (hasher : Str → Nat) (now : Nat → Nat → Int)
    (rand : Nat → Nat → Nat → Nat) (disk disk1 : Disk) (count : Int) (sc : ShardController)
    (h : ShardController.new hasher now rand disk count = .ok (sc, disk1)) :
    sc.shards.length = count.toNat ∧ sc.voted_ids = ∅ ∧ sc.shard_count = count := by
  unfold ShardController.new at h
  cases hb : ShardController.build hasher now rand count.toNat 0 disk with
  | error e => rw [hb] at h; cases h
  | ok r =>
    obtain ⟨shards, d⟩ := r
    rw [hb] at h
    simp only [bind, Except.bind, pure, Except.pure, Except.ok.injEq, Prod.mk.injEq] at h
    obtain ⟨hs, _⟩ := h
    subst hs
    exact ⟨ShardController.build_length hasher now rand _ _ _ _ _ hb, rfl, rfl⟩

/-- The two ways in which `route_packet` returns. -/
theorem ShardController.route_packet_cases (hasher : Str → Nat) (now : Int) (fuel : Nat)
    (sc sc1 : ShardController) (disk disk1 : Disk) (out : Str) (voter_id : Int)
    (packet : SecurePacket)
    (h : sc.route_packet hasher now fuel disk voter_id packet = .ok (sc1, disk1, out)) :
    (voter_id ∈ sc.voted_ids ∧ sc1 = sc ∧ disk1 = disk) ∨
    (voter_id ∉ sc.voted_ids ∧
      ∃ shard shard1, sc.shards[shard_index voter_id sc.shard_count]? = some shard ∧
        shard.add_block hasher now fuel disk packet = .ok (shard1, disk1) ∧
        sc1 = ⟨sc.shards.set (shard_index voter_id sc.shard_count) shard1,
          insert voter_id sc.voted_ids, sc.shard_count⟩) := by
  by_cases hv : voter_id ∈ sc.voted_ids
  · left
    unfold ShardController.route_packet at h
    rw [if_pos hv] at h
    simp only [Except.ok.injEq, Prod.mk.injEq] at h
    exact ⟨hv, h.1.symm, h.2.1.symm⟩
  · right
    obtain ⟨_, shard, shard1, hs, ha, hsc, _⟩ :=
      ShardController.route_packet_eq_ok hasher now fuel sc sc1 disk disk1 out voter_id packet hv h
    exact ⟨hv, shard, shard1, hs, ha, hsc⟩

/-- A run changes neither `shard_count` nor the number of shards. -/
theorem ShardController.run_shape (hasher : Str → Nat) (sc0 sc : ShardController)
    (hrun : ShardController.Run hasher sc0 sc) :
    sc.shard_count = sc0.shard_count ∧ sc.shards.length = sc0.shards.length := by
  induction hrun with
  | start => exact ⟨rfl, rfl⟩
  | routed now fuel disk disk1 voter_id packet out sc sc1 _ hroute ih =>
    rcases ShardController.route_packet_cases hasher now fuel sc sc1 disk disk1 out voter_id
      packet hroute with ⟨_, he, _⟩ | ⟨_, shard, shard1, _, _, he⟩
    · rw [he]; exact ih
    · rw [he]
      simp only [List.length_set]
      exact ih

/-- C16: in a controller made by the constructor with an `int` `shard_count`
that is at least 1, and in every controller reached from it by `route_packet`
calls, the number of shards is `shard_count`, and for every `voter_id`,
negative ones included, the index computed in `route_packet` is
`mix(voter_id) mod shard_count` and lies inside `shards`. -/
theorem shard_index_in_range (hasher : Str → Nat) (now : Nat → Nat → Int)
    (rand : Nat → Nat → Nat → Nat) (disk disk1 : Disk) (count : Int)
    (sc0 sc : ShardController) (voter_id : Int)
    (hcount : 1 ≤ count) (hint : count < 2 ^ 31)
    (hnew : ShardController.new hasher now rand disk count = .ok (sc0, disk1))
    (hrun : ShardController.Run hasher sc0 sc) :
    sc.shard_count = count ∧ (sc.shards.length : Int) = sc.shard_count ∧
    shard_index voter_id sc.shard_count = mix voter_id % sc.shard_count.toNat ∧
    shard_index voter_id sc.shard_count < sc.shards.length ∧
    ∃ shard, sc.shards[shard_index voter_id sc.shard_count]? = some shard := by
  obtain ⟨hl, _, hc⟩ := ShardController.new_spec hasher now rand disk disk1 count sc0 hnew
  obtain ⟨hc1, hl1⟩ := ShardController.run_shape hasher sc0 sc hrun
  have hsc : sc.shard_count = count := by rw [hc1, hc]
  have hlen : sc.shards.length = count.toNat := by rw [hl1, hl]
  obtain ⟨_, hne, hidx⟩ := shard_index_eq voter_id count hcount hint
  have hlt : shard_index voter_id sc.shard_count < sc.shards.length := by
    rw [hsc, hidx, hlen]
    exact Nat.mod_lt _ (by omega)
  refine ⟨hsc, by rw [hlen, hsc]; omega, by rw [hsc]; exact hidx, hlt, ?_⟩
  exact ⟨sc.shards[shard_index voter_id sc.shard_count], List.getElem?_eq_getElem hlt⟩

set_option maxRecDepth 100000 in
/-- The range of C16 for the negative id -1 in the two-shard sample controller
after one accepted vote. -/
theorem shard_index_in_range_witness :
    ((1 : Int) ≤ 2 ∧ (2 : Int) < 2 ^ 31 ∧
      ShardController.new sample_hasher (fun _ _ => 7) (fun _ _ => sample_rand) sample_disk 2
        = .ok (sample_controller,
            sample_saved ⟨[sample_genesis], 2, 1⟩ (sample_saved sample_chain sample_disk)) ∧
      ShardController.Run sample_hasher sample_controller sample_controller2 ∧
      mix (-1) = 539527247) ∧
    sample_controller2.shard_count = 2 ∧
    (sample_controller2.shards.length : Int) = sample_controller2.shard_count ∧
    shard_index (-1) sample_controller2.shard_count
      = mix (-1) % sample_controller2.shard_count.toNat ∧
    shard_index (-1) sample_controller2.shard_count < sample_controller2.shards.length ∧
    ∃ shard, sample_controller2.shards[shard_index (-1) sample_controller2.shard_count]?
      = some shard :=
  have hrun : ShardController.Run sample_hasher sample_controller sample_controller2 :=
    ShardController.Run.routed 8 5 sample_disk
      (sample_saved ⟨[sample_genesis, sample_mined], 2, 1⟩ sample_disk) 1000 sample_vote []
      sample_controller sample_controller2 ShardController.Run.start (by rfl)
  ⟨⟨by decide, by decide, by rfl, hrun, by decide⟩,
    shard_index_in_range sample_hasher (fun _ _ => 7) (fun _ _ => sample_rand) sample_disk
      (sample_saved ⟨[sample_genesis], 2, 1⟩ (sample_saved sample_chain sample_disk)) 2
      sample_controller sample_controller2 (-1) (by decide) (by decide) (by rfl) hrun⟩

/-! ### One block per accepted identity -/

theorem sum_map_set {α : Type} (f : α → Nat) :
    ∀ (l : List α) (i : Nat) (a x : α), l[i]? = some a →
      ((l.set i x).map f).sum + f a = (l.map f).sum + f x := by
  intro l
  induction l with
  | nil => intro i a x h; simp at h
  | cons b rest ih =>
    intro i a x h
    cases i with
    | zero =>
      simp only [List.getElem?_cons_zero, Option.some.injEq] at h
      subst h
      simp only [List.set_cons_zero, List.map_cons, List.sum_cons]
      omega
    | succ i =>
      simp only [List.getElem?_cons_succ] at h
      have := ih i a x h
      simp only [List.set_cons_succ, List.map_cons, List.sum_cons]
      omega

/-- A run from a controller whose shards are fresh keeps every chain
non-empty and one block per recorded identity. -/
theorem ShardController.run_blocks (hasher : Str → Nat) (sc0 sc : ShardController)
    (hids : sc0.voted_ids = ∅) (hfresh : ∀ shard ∈ sc0.shards, shard.is_fresh hasher)
    (hrun : ShardController.Run hasher sc0 sc) :
    (∀ shard ∈ sc.shards, shard.chain ≠ []) ∧
    (sc.shards.map fun shard => shard.get_size - 1).sum = sc.voted_ids.card := by
  induction hrun with
  | start =>
    refine ⟨fun shard hs => ?_, ?_⟩
    · obtain ⟨now, rand, hc⟩ := hfresh shard hs
      rw [hc]
      exact List.cons_ne_nil _ _
    · rw [hids, Finset.card_empty]
      apply List.sum_eq_zero
      intro x hx
      obtain ⟨shard, hs, rfl⟩ := List.mem_map.mp hx
      obtain ⟨now, rand, hc⟩ := hfresh shard hs
      simp [Blockchain.get_size, hc]
  | routed now fuel disk disk1 voter_id packet out sc sc1 _ hroute ih =>
    obtain ⟨hne, hsum⟩ := ih
    rcases ShardController.route_packet_cases hasher now fuel sc sc1 disk disk1 out voter_id
      packet hroute with ⟨_, he, _⟩ | ⟨hv, shard, shard1, hs, ha, he⟩
    · rw [he]; exact ⟨hne, hsum⟩
    · obtain ⟨tip, mined, _, hc, _⟩ :=
        Blockchain.add_block_spec hasher now fuel shard shard1 disk disk1 packet ha
      have hmem : shard ∈ sc.shards := List.getElem?_mem hs
      have hpos : shard.chain ≠ [] := hne shard hmem
      have hlen : 0 < shard.chain.length := List.length_pos.mpr hpos
      rw [he]
      refine ⟨fun x hx => ?_, ?_⟩
      · rcases List.mem_or_eq_of_mem_set hx with h | h
        · exact hne x h
        · rw [h, hc]
          simp
      · have hset := sum_map_set (fun shard : Blockchain => shard.get_size - 1) sc.shards
          (shard_index voter_id sc.shard_count) shard shard1 hs
        have h1 : shard1.get_size - 1 = (shard.get_size - 1) + 1 := by
          simp only [Blockchain.get_size, hc, List.length_append, List.length_singleton]
          omega
        rw [Finset.card_insert_of_not_mem hv, ← hsum]
        simp only at hset ⊢
        omega

/-- C17: after the constructor has made a controller with an `int`
`shard_count` that is at least 1 and shards that are all fresh, and after any
finite sequence of `route_packet` calls that returned, the sum over all shards
of `get_size() - 1` equals the number of identities in `voted_ids`. -/
theorem one_block_per_identity (hasher : Str → Nat) (now : Nat → Nat → Int)
    (rand : Nat → Nat → Nat → Nat) (disk disk1 : Disk) (count : Int)
    (sc0 sc : ShardController) (_hcount : 1 ≤ count) (_hint : count < 2 ^ 31)
    (hnew : ShardController.new hasher now rand disk count = .ok (sc0, disk1))
    (hfresh : ∀ shard ∈ sc0.shards, shard.is_fresh hasher)
    (hrun : ShardController.Run hasher sc0 sc) :
    (sc.shards.map fun shard => shard.get_size - 1).sum = sc.voted_ids.card := by
  obtain ⟨_, hids, _⟩ := ShardController.new_spec hasher now rand disk disk1 count sc0 hnew
  exact (ShardController.run_blocks hasher sc0 sc hids hfresh hrun).2

set_option maxRecDepth 100000 in
/-- The count of C17 after the calls with the ids 1000 and, a second time,
1000 on the two-shard sample controller: one block besides the genesis blocks,
one identity. -/
theorem one_block_per_identity_witness :
    ((1 : Int) ≤ 2 ∧ (2 : Int) < 2 ^ 31 ∧
      ShardController.new sample_hasher (fun _ _ => 7) (fun _ _ => sample_rand) sample_disk 2
        = .ok (sample_controller,
            sample_saved ⟨[sample_genesis], 2, 1⟩ (sample_saved sample_chain sample_disk)) ∧
      (∀ shard ∈ sample_controller.shards, shard.is_fresh sample_hasher) ∧
      ShardController.Run sample_hasher sample_controller sample_controller2) ∧
    (sample_controller2.shards.map fun shard => shard.get_size - 1).sum
      = sample_controller2.voted_ids.card :=
  have hfresh : ∀ shard ∈ sample_controller.shards, shard.is_fresh sample_hasher := by
    intro shard hs
    simp only [sample_controller, List.mem_cons, List.mem_singleton, List.not_mem_nil,
      or_false] at hs
    rcases hs with h | h
    · exact ⟨7, sample_rand, by rw [h]; rfl⟩
    · exact ⟨7, sample_rand, by rw [h]; rfl⟩
  have hrun : ShardController.Run sample_hasher sample_controller sample_controller2 :=
    ShardController.Run.routed 9 5
      (sample_saved ⟨[sample_genesis, sample_mined], 2, 1⟩ sample_disk)
      (sample_saved ⟨[sample_genesis, sample_mined], 2, 1⟩ sample_disk) 1000 sample_vote
      ("ERROR: Voter ".toList ++ decimal 1000 ++ " has already voted!\n".toList)
      sample_controller2 sample_controller2
      (ShardController.Run.routed 8 5 sample_disk
        (sample_saved ⟨[sample_genesis, sample_mined], 2, 1⟩ sample_disk) 1000 sample_vote []
        sample_controller sample_controller2 ShardController.Run.start (by rfl))
      (by rfl)
  ⟨⟨by decide, by decide, by rfl, hfresh, hrun⟩,
    one_block_per_identity sample_hasher (fun _ _ => 7) (fun _ _ => sample_rand) sample_disk
      (sample_saved ⟨[sample_genesis], 2, 1⟩ (sample_saved sample_chain sample_disk)) 2
      sample_controller sample_controller2 (by decide) (by decide) (by rfl) hfresh hrun⟩

/-! ### Persistence -/

set_option maxRecDepth 100000 in
theorem char_toNat_ofNat_byte : ∀ m, m < 256 → (Char.ofNat m).toNat = m := by
  decide

theorem length_size_t_bytes (n : Nat) : (size_t_bytes n).length = 8 := by
  simp [size_t_bytes]

theorem read_size_t_bytes (n : Nat) (rest : Str) (h : n < 2 ^ 64) :
    read_size_t (size_t_bytes n ++ rest) = some (n, rest) := by
  have hl := length_size_t_bytes n
  unfold read_size_t
  rw [if_neg (by rw [List.length_append, hl]; omega)]
  rw [List.take_left' hl, List.drop_left' hl]
  have hr : List.range 8 = [0, 1, 2, 3, 4, 5, 6, 7] := by decide
  have hb : ∀ k, (Char.ofNat (n / 256 ^ k % 256)).toNat = n / 256 ^ k % 256 :=
    fun k => char_toNat_ofNat_byte _ (Nat.mod_lt _ (by decide))
  simp only [size_t_bytes, hr, List.map_cons, List.map_nil, List.foldr_cons, List.foldr_nil, hb]
  simp only [Option.some.injEq, Prod.mk.injEq, and_true]
  norm_num
  omega

theorem read_string_append (s rest : Str) : read_string s.length (s ++ rest) = some (s, rest) := by
  unfold read_string
  rw [if_neg (by rw [List.length_append]; omega), List.take_left' rfl, List.drop_left' rfl]

theorem takeWhile_ne_spec (d : Char) : ∀ (l : List Char), d ∈ l →
    (l.takeWhile fun c => c != d).length < l.length ∧ d ∉ l.takeWhile fun c => c != d := by
  intro l
  induction l with
  | nil => intro h; cases h
  | cons a t ih =>
    intro h
    by_cases ha : a = d
    · subst ha
      simp
    · have ht : d ∈ t := by
        rcases List.mem_cons.mp h with e | e
        · exact absurd e.symm ha
        · exact e
      obtain ⟨h1, h2⟩ := ih ht
      have hne : (a != d) = true := by simp [ha]
      simp only [List.takeWhile_cons, hne, if_true]
      refine ⟨by simp only [List.length_cons]; omega, ?_⟩
      intro hm
      rcases List.mem_cons.mp hm with e | e
      · exact ha e.symm
      · exact h2 e

/-- The decoded content of a packet that holds a delimiter: shorter than the
capacity and free of NUL. -/
theorem SecurePacket.get_content_spec (pkt : SecurePacket) (h : NUL ∈ pkt.data) :
    ∃ content, pkt.get_content = .ok content ∧ content.length < PACKET_SIZE ∧ NUL ∉ content := by
  obtain ⟨h1, h2⟩ := takeWhile_ne_spec NUL pkt.data h
  refine ⟨pkt.data.takeWhile fun c => c != NUL, ?_, ?_, h2⟩
  · unfold SecurePacket.get_content
    rw [if_pos h]
  · rw [← pkt.size_eq]
    exact h1

/-- Reading back the records written for `blocks`: as many blocks, each with
the saved content, `block_hash` and `previous_hash`, a nonce of 0 and the
clock value of its reconstruction. -/
theorem load_blocks_serialize (hasher : Str → Nat) (now : Nat → Int) (rand : Nat → Nat → Nat) :
    ∀ (blocks : List Block) (i : Nat) (s : Str),
      (∀ b ∈ blocks, b.block_hash.length < 2 ^ 64 ∧ b.previous_hash.length < 2 ^ 64) →
      serialize_blocks blocks = .ok s →
      ∃ loaded, load_blocks hasher now rand blocks.length i s = .ok loaded ∧
        loaded.length = blocks.length ∧
        ∀ (j : Nat) (b : Block), blocks[j]? = some b →
          ∃ b', loaded[j]? = some b' ∧ b'.packet.get_content = b.packet.get_content ∧
            b'.block_hash = b.block_hash ∧ b'.previous_hash = b.previous_hash ∧
            b'.nonce = 0 ∧ b'.timestamp = now (i + j) := by
  intro blocks
  induction blocks with
  | nil =>
    intro i s _ _
    exact ⟨[], rfl, rfl, fun j b h => by simp at h⟩
  | cons b rest ih =>
    intro i s hlen hs
    unfold serialize_blocks at hs
    cases hb : b.serialize with
    | error e => rw [hb] at hs; cases hs
    | ok sb =>
      rw [hb] at hs
      simp only [bind, Except.bind] at hs
      cases hr : serialize_blocks rest with
      | error e => rw [hr] at hs; cases hs
      | ok sr =>
        rw [hr] at hs
        simp only [pure, Except.pure, Except.ok.injEq] at hs
        subst hs
        unfold Block.serialize at hb
        cases hg : b.packet.get_content with
        | error e => rw [hg] at hb; cases hb
        | ok content =>
          rw [hg] at hb
          simp only [bind, Except.bind, pure, Except.pure, Except.ok.injEq] at hb
          subst hb
          have hdel : NUL ∈ b.packet.data := by
            by_contra hno
            unfold SecurePacket.get_content at hg
            rw [if_neg hno] at hg
            cases hg
          obtain ⟨c2, hc2, hclen, hcnul⟩ := SecurePacket.get_content_spec b.packet hdel
          rw [hg] at hc2
          cases hc2
          obtain ⟨hnew, hcontent, _⟩ := SecurePacket.newD_spec content (rand i) hclen hcnul
          obtain ⟨hbh, hph⟩ := hlen b (by simp)
          obtain ⟨loaded, hl, hll, hlj⟩ :=
            ih (i + 1) sr (fun x hx => hlen x (by simp [hx])) hr
          have hc64 : content.length < 2 ^ 64 := by unfold PACKET_SIZE at hclen; omega
          refine ⟨{ Block.new hasher (now i) b.previous_hash (SecurePacket.newD content (rand i))
              with block_hash := b.block_hash } :: loaded, ?_, by simp [hll], ?_⟩
          · rw [List.length_cons]
            unfold load_blocks
            simp only [List.append_assoc, read_size_t_bytes _ _ hc64, read_string_append,
              read_size_t_bytes _ _ hbh, read_size_t_bytes _ _ hph, List.take_left' rfl,
              List.drop_left' rfl, List.length_append, hnew, hl, bind, Except.bind, pure,
              Except.pure]
            have hz : b.previous_hash.length - (b.previous_hash.length + sr.length) = 0 := by
              omega
            rw [hz]
            simp
          · intro j x hx
            cases j with
            | zero =>
              simp only [List.getElem?_cons_zero, Option.some.injEq] at hx
              cases hx
              refine ⟨_, List.getElem?_cons_zero, ?_, rfl, rfl, rfl, rfl⟩
              rw [hg]
              exact hcontent
            | succ j =>
              simp only [List.getElem?_cons_succ] at hx
              obtain ⟨b', h1, h2, h3, h4, h5, h6⟩ := hlj j x hx
              refine ⟨b', by simpa using h1, h2, h3, h4, h5, ?_⟩
              rw [h6]
              congr 1
              omega

/-- C12: when a chain whose packets each hold a delimiter is written by
`save_to_disk` to a file that can be opened for writing, `load_from_disk` on
that file returns a chain with the same number of blocks in which the block at
every index has the decoded content, the `block_hash` and the `previous_hash`
of the saved block at that index.  The block count and the lengths of the
hashes are `size_t` values. -/
theorem persistence_round_trip (hasher : Str → Nat) (now : Nat → Int)
    (rand : Nat → Nat → Nat) (bc bc0 : Blockchain) (disk : Disk)
    (hdelim : ∀ b ∈ bc.get_chain, NUL ∈ b.packet.data)
    (hw : disk.writable bc.get_filename = true)
    (hid : bc0.shard_id = bc.shard_id)
    (hsize : bc.get_size < 2 ^ 64)
    (hstr : ∀ b ∈ bc.get_chain, b.block_hash.length < 2 ^ 64 ∧ b.previous_hash.length < 2 ^ 64) :
    ∃ disk1 loaded, bc.save_to_disk disk = .ok disk1 ∧
      Blockchain.load_from_disk hasher now rand bc0 disk1 = .ok loaded ∧
      loaded.get_size = bc.get_size ∧
      ∀ (i : Nat) (b : Block), bc.get_chain[i]? = some b →
        ∃ b', loaded.get_chain[i]? = some b' ∧
          b'.packet.get_content = b.packet.get_content ∧
          b'.block_hash = b.block_hash ∧ b'.previous_hash = b.previous_hash := by
  unfold Blockchain.get_chain at hdelim hstr
  unfold Blockchain.get_size at hsize
  obtain ⟨s, hs⟩ := serialize_blocks_returns bc.chain hdelim
  obtain ⟨loaded, hl, hll, hlj⟩ := load_blocks_serialize hasher now rand bc.chain 0 s hstr hs
  have hname : bc0.get_filename = bc.get_filename := by
    unfold Blockchain.get_filename
    rw [hid]
  refine ⟨disk.write bc.get_filename (size_t_bytes bc.chain.length ++ s),
    { bc0 with chain := loaded }, ?_, ?_, hll, fun i b hb => ?_⟩
  · unfold Blockchain.save_to_disk
    simp only [hw, Bool.not_true, Bool.false_eq_true, if_false, hs, bind, Except.bind, pure,
      Except.pure]
  · unfold Blockchain.load_from_disk
    rw [hname]
    simp only [Disk.write, if_true, read_size_t_bytes _ _ hsize, hl, bind, Except.bind, pure,
      Except.pure]
  · obtain ⟨b', h1, h2, h3, h4, _⟩ := hlj i b hb
    exact ⟨b', h1, h2, h3, h4⟩

set_option maxRecDepth 100000 in
/-- The round trip of C12 on the two-block sample chain, reopened at clock
value 100. -/
theorem persistence_round_trip_witness :
    ((∀ b ∈ sample_chain2.get_chain, NUL ∈ b.packet.data) ∧
      sample_disk.writable sample_chain2.get_filename = true ∧
      sample_chain2.get_size < 2 ^ 64 ∧
      (∀ b ∈ sample_chain2.get_chain,
        b.block_hash.length < 2 ^ 64 ∧ b.previous_hash.length < 2 ^ 64) ∧
      Blockchain.load_from_disk sample_hasher (fun _ => 100) (fun _ => sample_rand)
        ⟨[], 2, 0⟩ (sample_saved sample_chain2 sample_disk) = .ok sample_reloaded ∧
      sample_reloaded.get_size = 2) ∧
    ∃ disk1 loaded, sample_chain2.save_to_disk sample_disk = .ok disk1 ∧
      Blockchain.load_from_disk sample_hasher (fun _ => 100) (fun _ => sample_rand)
        ⟨[], 2, 0⟩ disk1 = .ok loaded ∧
      loaded.get_size = sample_chain2.get_size ∧
      ∀ (i : Nat) (b : Block), sample_chain2.get_chain[i]? = some b →
        ∃ b', loaded.get_chain[i]? = some b' ∧
          b'.packet.get_content = b.packet.get_content ∧
          b'.block_hash = b.block_hash ∧ b'.previous_hash = b.previous_hash :=
  ⟨⟨by decide, by rfl, by decide, by decide, by decide, by decide⟩,
    persistence_round_trip sample_hasher (fun _ => 100) (fun _ => sample_rand) sample_chain2
      ⟨[], 2, 0⟩ sample_disk (by decide) (by rfl) (by rfl) (by decide) (by decide)⟩

set_option maxRecDepth 100000 in
/-- C13 fails on the code: the two-block ledger made by the constructor and
one `add_block` is valid; saved and reopened at clock value 100 it has its two
blocks back with the saved hashes, but the second block now has nonce 0 where
it was mined to nonce 1, so its `calculate_hash()` is `8000000000000000`
against the restored `block_hash` `0000000000000000`, and `is_chain_valid()`
is false. -/
theorem restart_breaks_validity :
    Blockchain.FreshRun sample_hasher sample_chain2 ∧
    sample_chain2.is_chain_valid sample_hasher = true ∧
    sample_chain2.save_to_disk sample_disk = .ok (sample_saved sample_chain2 sample_disk) ∧
    Blockchain.load_from_disk sample_hasher (fun _ => 100) (fun _ => sample_rand)
      ⟨[], 2, 0⟩ (sample_saved sample_chain2 sample_disk) = .ok sample_reloaded ∧
    sample_reloaded.get_size = 2 ∧
    (sample_reloaded.get_chain.map fun b => b.nonce) = [0, 0] ∧
    (sample_chain2.get_chain.map fun b => b.nonce) = [0, 1] ∧
    (sample_reloaded.get_chain.map fun b => b.block_hash)
      = ["8000000000000000".toList, "0000000000000000".toList] ∧
    (sample_reloaded.get_chain.map fun b => b.calculate_hash sample_hasher)
      = ["8000000000000000".toList, "8000000000000000".toList] ∧
    sample_reloaded.is_chain_valid sample_hasher = false :=
  ⟨Blockchain.FreshRun.add 8 5 sample_disk (sample_saved sample_chain2 sample_disk)
      sample_vote sample_chain sample_chain2
      (Blockchain.FreshRun.fresh (fun _ => 7) (fun _ => sample_rand) sample_disk
        (sample_saved sample_chain sample_disk) 0 sample_chain (by rfl) (by rfl))
      (by rfl),
    by decide, by rfl, by decide, by decide, by decide, by decide, by decide, by decide,
    by decide⟩

/-! ### End-to-end counting -/

theorem tally_increment_keys (content : Str) (tally : List (Str × Nat)) :
    (tally_increment content tally).map Prod.fst
      = if content ∈ tally.map Prod.fst then tally.map Prod.fst
        else tally.map Prod.fst ++ [content] := by
  induction tally with
  | nil => simp [tally_increment]
  | cons kv rest ih =>
    obtain ⟨k, v⟩ := kv
    by_cases hk : content = k
    · subst hk
      simp [tally_increment]
    · simp only [tally_increment, hk, if_false, List.map_cons, ih, List.mem_cons, false_or]
      by_cases hm : content ∈ rest.map Prod.fst
      · simp only [hm, if_true]
      · simp only [hm, if_false, List.cons_append]

theorem tally_increment_pos (content : Str) (tally : List (Str × Nat))
    (h : ∀ kv ∈ tally, 1 ≤ kv.2) : ∀ kv ∈ tally_increment content tally, 1 ≤ kv.2 := by
  induction tally with
  | nil =>
    intro kv hkv
    simp only [tally_increment, List.mem_singleton] at hkv
    subst hkv
    exact Nat.le_refl 1
  | cons a rest ih =>
    obtain ⟨k, v⟩ := a
    intro kv hkv
    by_cases hk : content = k
    · simp only [tally_increment, hk, if_true, List.mem_cons] at hkv
      rcases hkv with e | e
      · subst e
        simp
      · exact h kv (by simp [e])
    · simp only [tally_increment, hk, if_false, List.mem_cons] at hkv
      rcases hkv with e | e
      · exact h kv (by simp [e])
      · exact ih (fun x hx => h x (by simp [hx])) kv e

theorem tally_increment_ok (content : Str) (tally : List (Str × Nat)) (h : tally_ok tally) :
    tally_ok (tally_increment content tally) := by
  obtain ⟨h1, h2⟩ := h
  refine ⟨?_, tally_increment_pos content tally h2⟩
  rw [tally_increment_keys]
  by_cases hm : content ∈ tally.map Prod.fst
  · rw [if_pos hm]; exact h1
  · rw [if_neg hm]
    rw [List.nodup_append]
    refine ⟨h1, List.nodup_singleton _, ?_⟩
    intro a ha hb
    rw [List.mem_singleton] at hb
    subst hb
    exact hm ha

theorem tally_block_ok (tally tally1 : List (Str × Nat)) (block : Block)
    (hok : tally_ok tally) (h : tally_block tally block = .ok tally1) : tally_ok tally1 := by
  unfold tally_block at h
  cases hg : block.packet.get_content with
  | error e => rw [hg] at h; cases h
  | ok content =>
    rw [hg] at h
    simp only [bind, Except.bind] at h
    split at h
    · cases h; exact hok
    · cases h; exact tally_increment_ok content tally hok

theorem tally_chain_ok : ∀ (blocks : List Block) (tally tally1 : List (Str × Nat)),
    tally_ok tally → tally_chain blocks tally = .ok tally1 → tally_ok tally1 := by
  intro blocks
  induction blocks with
  | nil => intro tally tally1 hok h; cases h; exact hok
  | cons b rest ih =>
    intro tally tally1 hok h
    unfold tally_chain at h
    cases hb : tally_block tally b with
    | error e => rw [hb] at h; cases h
    | ok t =>
      rw [hb] at h
      exact ih t tally1 (tally_block_ok tally t b hok hb) h

theorem tally_shards_ok : ∀ (shards : List Blockchain) (tally tally1 : List (Str × Nat)),
    tally_ok tally → tally_shards shards tally = .ok tally1 → tally_ok tally1 := by
  intro shards
  induction shards with
  | nil => intro tally tally1 hok h; cases h; exact hok
  | cons s rest ih =>
    intro tally tally1 hok h
    unfold tally_shards at h
    cases hb : tally_chain s.get_chain tally with
    | error e => rw [hb] at h; cases h
    | ok t =>
      rw [hb] at h
      exact ih t tally1 (tally_chain_ok s.get_chain tally t hok hb) h

/-- In a map with one entry per key the count of a key is the count of its entry. -/
theorem tally_count_of_mem : ∀ (tally : List (Str × Nat)), (tally.map Prod.fst).Nodup →
    ∀ kv ∈ tally, tally_count tally kv.1 = kv.2 := by
  intro tally
  induction tally with
  | nil => intro _ kv h; cases h
  | cons a rest ih =>
    intro hnd kv hkv
    rw [List.map_cons, List.nodup_cons] at hnd
    obtain ⟨hnot, hnd'⟩ := hnd
    unfold tally_count
    rcases List.mem_cons.mp hkv with e | e
    · subst e
      simp
    · have hne : ¬ a.1 = kv.1 := by
        intro heq
        apply hnot
        rw [heq]
        exact List.mem_map_of_mem Prod.fst e
      simp only [List.find?_cons, hne, decide_False]
      exact ih hnd' kv e

theorem submit_eq_ok (hasher : Str → Nat) (sc sc1 : ShardController) (disk disk1 : Disk)
    (v : VoteCall) (h : submit hasher (sc, disk) v = .ok (sc1, disk1)) :
    ∃ pkt out, SecurePacket.new v.content v.rand = .ok pkt ∧
      sc.route_packet hasher v.now v.fuel disk v.voter_id pkt = .ok (sc1, disk1, out) := by
  unfold submit generate_vote at h
  cases hp : SecurePacket.new v.content v.rand with
  | error e => rw [hp] at h; cases h
  | ok pkt =>
    rw [hp] at h
    simp only [bind, Except.bind] at h
    cases hr : sc.route_packet hasher v.now v.fuel disk v.voter_id pkt with
    | error e => rw [hr] at h; cases h
    | ok r =>
      obtain ⟨s1, d1, out⟩ := r
      rw [hr] at h
      simp only [pure, Except.pure, Except.ok.injEq, Prod.mk.injEq] at h
      obtain ⟨h1, h2⟩ := h
      subst h1
      subst h2
      exact ⟨pkt, out, rfl, hr⟩

theorem count_content_concat (c : Str) (blocks : List Block) (b : Block) :
    count_content c (blocks ++ [b])
      = count_content c blocks + (if b.packet.get_content = .ok c then 1 else 0) := by
  unfold count_content
  rw [List.countP_append]
  by_cases h : b.packet.get_content = .ok c
  · simp [List.countP_cons, h]
  · simp [List.countP_cons, h]

/-- What an accepted call adds to the shards: one block with the packet. -/
theorem ShardController.route_accepted_blocks (hasher : Str → Nat) (now : Int) (fuel : Nat)
    (sc sc1 : ShardController) (disk disk1 : Disk) (out : Str) (voter_id : Int)
    (packet : SecurePacket) (hv : voter_id ∉ sc.voted_ids)
    (h : sc.route_packet hasher now fuel disk voter_id packet = .ok (sc1, disk1, out)) :
    sc1.voted_ids = insert voter_id sc.voted_ids ∧
    (∀ c, sc1.blocks_for c
      = sc.blocks_for c + (if packet.get_content = .ok c then 1 else 0)) ∧
    ((∀ shard ∈ sc.shards, ∀ b ∈ shard.chain, NUL ∈ b.packet.data) → NUL ∈ packet.data →
      ∀ shard ∈ sc1.shards, ∀ b ∈ shard.chain, NUL ∈ b.packet.data) := by
  obtain ⟨_, shard, shard1, hs, ha, hsc, _⟩ :=
    ShardController.route_packet_eq_ok hasher now fuel sc sc1 disk disk1 out voter_id packet hv h
  obtain ⟨tip, mined, _, hc, _, _, _, hp, _⟩ :=
    Blockchain.add_block_spec hasher now fuel shard shard1 disk disk1 packet ha
  subst hsc
  refine ⟨rfl, fun c => ?_, fun hd hpk x hx b hb => ?_⟩
  · have hset := sum_map_set (fun s : Blockchain => count_content c s.get_chain) sc.shards
      (shard_index voter_id sc.shard_count) shard shard1 hs
    have h1 : count_content c shard1.get_chain
        = count_content c shard.get_chain + (if packet.get_content = .ok c then 1 else 0) := by
      unfold Blockchain.get_chain
      rw [hc, count_content_concat, hp]
    unfold ShardController.blocks_for
    simp only at hset ⊢
    omega
  · rcases List.mem_or_eq_of_mem_set hx with hx | hx
    · exact hd x hx b hb
    · rw [hx, hc] at hb
      rcases List.mem_append.mp hb with hb | hb
      · exact hd shard (List.getElem?_mem hs) b hb
      · rw [List.mem_singleton] at hb
        rw [hb, hp]
        exact hpk

/-- What a sequence of votes with new, pairwise distinct ids adds to the
shards: one block per vote, decoding to the content of the vote. -/
theorem submit_all_blocks (hasher : Str → Nat) :
    ∀ (votes : List VoteCall) (sc sc1 : ShardController) (disk disk1 : Disk),
      (votes.map VoteCall.voter_id).Nodup →
      (∀ v ∈ votes, v.voter_id ∉ sc.voted_ids) →
      (∀ v ∈ votes, NUL ∉ v.content ∧ v.content.length ≤ PACKET_SIZE - 1) →
      (∀ shard ∈ sc.shards, ∀ b ∈ shard.chain, NUL ∈ b.packet.data) →
      submit_all hasher votes (sc, disk) = .ok (sc1, disk1) →
      (∀ c, sc1.blocks_for c
        = sc.blocks_for c + votes.countP fun v => decide (v.content = c)) ∧
      (∀ shard ∈ sc1.shards, ∀ b ∈ shard.chain, NUL ∈ b.packet.data) := by
  intro votes
  induction votes with
  | nil =>
    intro sc sc1 disk disk1 _ _ _ hd h
    simp only [submit_all, Except.ok.injEq, Prod.mk.injEq] at h
    obtain ⟨h1, _⟩ := h
    subst h1
    exact ⟨fun c => by simp, hd⟩
  | cons v rest ih =>
    intro sc sc1 disk disk1 hnd hnew hpay hd h
    unfold submit_all at h
    cases hs : submit hasher (sc, disk) v with
    | error e => rw [hs] at h; cases h
    | ok st =>
      obtain ⟨sc2, disk2⟩ := st
      rw [hs] at h
      simp only [bind, Except.bind] at h
      obtain ⟨pkt, out, hpkt, hroute⟩ := submit_eq_ok hasher sc sc2 disk disk2 v hs
      obtain ⟨hnul, hlen⟩ := hpay v (by simp)
      have hlt : v.content.length < PACKET_SIZE := by unfold PACKET_SIZE at *; omega
      obtain ⟨hnewD, hcontent, hdel⟩ := SecurePacket.newD_spec v.content v.rand hlt hnul
      rw [hnewD] at hpkt
      cases hpkt
      obtain ⟨hids, hblocks, hdelim⟩ := ShardController.route_accepted_blocks hasher v.now v.fuel
        sc sc2 disk disk2 out v.voter_id _ (hnew v (by simp)) hroute
      rw [List.map_cons, List.nodup_cons] at hnd
      obtain ⟨hnotin, hnd'⟩ := hnd
      have hnew' : ∀ w ∈ rest, w.voter_id ∉ sc2.voted_ids := by
        intro w hw hmem
        rw [hids, Finset.mem_insert] at hmem
        rcases hmem with e | e
        · exact hnotin (e ▸ List.mem_map_of_mem VoteCall.voter_id hw)
        · exact hnew w (by simp [hw]) e
      obtain ⟨hb2, hd2⟩ := ih sc2 sc1 disk2 disk1 hnd' hnew'
        (fun w hw => hpay w (by simp [hw])) (hdelim hd hdel) h
      refine ⟨fun c => ?_, hd2⟩
      rw [hb2 c, hblocks c, hcontent, List.countP_cons]
      by_cases hc : v.content = c
      · simp [hc]; omega
      · simp [hc]

theorem fresh_blocks_for (hasher : Str → Nat) (sc : ShardController)
    (hfresh : ∀ shard ∈ sc.shards, shard.is_fresh hasher) (c : Str)
    (hc : ¬ (c = "GENESIS_BLOCK".toList ∨ c = "GENESIS".toList)) :
    sc.blocks_for c = 0 ∧ ∀ shard ∈ sc.shards, ∀ b ∈ shard.chain, NUL ∈ b.packet.data := by
  refine ⟨?_, fun shard hs b hb => ?_⟩
  · unfold ShardController.blocks_for
    apply List.sum_eq_zero
    intro x hx
    obtain ⟨shard, hs, rfl⟩ := List.mem_map.mp hx
    obtain ⟨now, rand, hch⟩ := hfresh shard hs
    obtain ⟨_, _, _, hg, _⟩ := genesis_block_spec hasher now rand
    have hne : ¬ (genesis_block hasher now rand).packet.get_content = .ok c := by
      rw [hg]
      intro e
      injection e with e
      exact hc (Or.inl e.symm)
    simp [count_content, Blockchain.get_chain, hch, List.countP_cons, hne]
  · obtain ⟨now, rand, hch⟩ := hfresh shard hs
    rw [hch, List.mem_singleton] at hb
    rw [hb]
    exact (genesis_block_spec hasher now rand).2.2.2.2

/-- The map the tally loops build after a run of votes on a controller with
fresh shards: one entry per candidate with a vote, holding the number of its
votes. -/
theorem tally_shards_after_votes (hasher : Str → Nat) (sc0 sc : ShardController)
    (disk0 disk1 : Disk) (votes : List VoteCall)
    (hempty : sc0.voted_ids = ∅)
    (hfresh : ∀ shard ∈ sc0.shards, shard.is_fresh hasher)
    (hids : (votes.map VoteCall.voter_id).Nodup)
    (hpay : ∀ v ∈ votes, NUL ∉ v.content ∧ v.content.length ≤ PACKET_SIZE - 1 ∧
      v.content ≠ "GENESIS_BLOCK".toList ∧ v.content ≠ "GENESIS".toList)
    (hrun : submit_all hasher votes (sc0, disk0) = .ok (sc, disk1)) :
    ∃ t, tally_shards sc.shards [] = .ok t ∧ tally_ok t ∧
      ∀ c, tally_count t c = votes.countP fun v => decide (v.content = c) := by
  have hd0 : ∀ shard ∈ sc0.shards, ∀ b ∈ shard.chain, NUL ∈ b.packet.data :=
    (fresh_blocks_for hasher sc0 hfresh [] (by decide)).2
  obtain ⟨hb, hd⟩ := submit_all_blocks hasher votes sc0 sc disk0 disk1 hids
    (fun v _ => by rw [hempty]; exact Finset.not_mem_empty _)
    (fun v hv => ⟨(hpay v hv).1, (hpay v hv).2.1⟩) hd0 hrun
  obtain ⟨t, ht, _⟩ := tally_shards_returns sc.shards [] hd
  refine ⟨t, ht,
    tally_shards_ok sc.shards [] t ⟨List.nodup_nil, fun _ h => by cases h⟩ ht, fun c => ?_⟩
  have h1 := tally_shards_count c sc.shards [] t ht
  have h0 : tally_count [] c = 0 := rfl
  rw [h0, Nat.zero_add] at h1
  rw [h1]
  by_cases hc : c = "GENESIS_BLOCK".toList ∨ c = "GENESIS".toList
  · rw [if_pos hc]
    symm
    rw [List.countP_eq_zero]
    intro v hv hvc
    have hvc' : v.content = c := of_decide_eq_true hvc
    obtain ⟨_, _, h3, h4⟩ := hpay v hv
    rcases hc with hc | hc
    · exact h3 (hvc'.trans hc)
    · exact h4 (hvc'.trans hc)
  · rw [if_neg hc]
    have h2 := hb c
    rw [(fresh_blocks_for hasher sc0 hfresh c hc).1, Nat.zero_add] at h2
    exact h2

/-- C11 (as amended): after the constructor has made a controller with an
`int` `shard_count` that is at least 1 and shards that are all fresh, and
after votes with pairwise distinct ids and payloads that are NUL-free, at most
1023 characters long and different from `GENESIS_BLOCK` and `GENESIS` have all
been routed, with no candidate receiving `2^31` votes or more, the tally is
defined, assigns to every candidate the number of votes with that payload and
lists no candidate that has no vote. -/
theorem tally_counts_votes (hasher : Str → Nat) (now : Nat → Nat → Int)
    (rand : Nat → Nat → Nat → Nat) (disk disk0 disk1 : Disk) (count : Int)
    (sc0 sc : ShardController) (votes : List VoteCall)
    (_hcount : 1 ≤ count) (_hint : count < 2 ^ 31)
    (hnew : ShardController.new hasher now rand disk count = .ok (sc0, disk0))
    (hfresh : ∀ shard ∈ sc0.shards, shard.is_fresh hasher)
    (hids : (votes.map VoteCall.voter_id).Nodup)
    (hpay : ∀ v ∈ votes, NUL ∉ v.content ∧ v.content.length ≤ PACKET_SIZE - 1 ∧
      v.content ≠ "GENESIS_BLOCK".toList ∧ v.content ≠ "GENESIS".toList)
    (hbound : ∀ c, (votes.countP fun v => decide (v.content = c)) < 2 ^ 31)
    (hrun : submit_all hasher votes (sc0, disk0) = .ok (sc, disk1)) :
    ∃ tally, sc.get_tally = .ok tally ∧
      (∀ c, tally_count tally c = votes.countP fun v => decide (v.content = c)) ∧
      ∀ kv ∈ tally, ∃ v ∈ votes, v.content = kv.1 := by
  obtain ⟨_, hempty, _⟩ := ShardController.new_spec hasher now rand disk disk0 count sc0 hnew
  obtain ⟨t, ht, hok, hcounts⟩ :=
    tally_shards_after_votes hasher sc0 sc disk0 disk1 votes hempty hfresh hids hpay hrun
  have hentry : ∀ kv ∈ t, kv.2 = votes.countP fun v => decide (v.content = kv.1) := by
    intro kv hkv
    rw [← hcounts kv.1, tally_count_of_mem t hok.1 kv hkv]
  refine ⟨t, ?_, hcounts, fun kv hkv => ?_⟩
  · unfold ShardController.get_tally
    simp only [ht, bind, Except.bind]
    have hall : (t.all fun kv => decide (kv.2 < 2 ^ 31)) = true := by
      rw [List.all_eq_true]
      intro kv hkv
      rw [hentry kv hkv]
      exact decide_eq_true (hbound kv.1)
    rw [if_pos hall]
    rfl
  · have hpos : 0 < votes.countP fun v => decide (v.content = kv.1) := by
      rw [← hentry kv hkv]
      exact hok.2 kv hkv
    obtain ⟨v, hv, hvc⟩ := List.countP_pos_iff.mp hpos
    exact ⟨v, hv, of_decide_eq_true hvc⟩

set_option maxRecDepth 100000 in
/-- The count of C11 for the payloads `A`, `A`, `B` from the voters 1000, 1001
and 1002 on the two-shard sample controller: `A` has 2 votes and `B` has 1. -/
theorem tally_counts_votes_witness :
    (((1 : Int) ≤ 2 ∧ (2 : Int) < 2 ^ 31) ∧
      ShardController.new sample_hasher (fun _ _ => 7) (fun _ _ => sample_rand) sample_disk 2
        = .ok (sample_controller, sample_disk2) ∧
      (∀ shard ∈ sample_controller.shards, shard.is_fresh sample_hasher) ∧
      (sample_votes.map VoteCall.voter_id).Nodup ∧
      (∀ v ∈ sample_votes, NUL ∉ v.content ∧ v.content.length ≤ PACKET_SIZE - 1 ∧
        v.content ≠ "GENESIS_BLOCK".toList ∧ v.content ≠ "GENESIS".toList) ∧
      (∀ c, (sample_votes.countP fun v => decide (v.content = c)) < 2 ^ 31) ∧
      submit_all sample_hasher sample_votes (sample_controller, sample_disk2)
        = .ok sample_after_votes ∧
      sample_after_votes.1.get_tally = .ok [("A".toList, 2), ("B".toList, 1)]) ∧
    ∃ tally, sample_after_votes.1.get_tally = .ok tally ∧
      (∀ c, tally_count tally c = sample_votes.countP fun v => decide (v.content = c)) ∧
      ∀ kv ∈ tally, ∃ v ∈ sample_votes, v.content = kv.1 :=
  have hfresh : ∀ shard ∈ sample_controller.shards, shard.is_fresh sample_hasher := by
    intro shard hs
    simp only [sample_controller, List.mem_cons, List.mem_singleton, List.not_mem_nil,
      or_false] at hs
    rcases hs with h | h
    · exact ⟨7, sample_rand, by rw [h]; rfl⟩
    · exact ⟨7, sample_rand, by rw [h]; rfl⟩
  have hpay : ∀ v ∈ sample_votes, NUL ∉ v.content ∧ v.content.length ≤ PACKET_SIZE - 1 ∧
      v.content ≠ "GENESIS_BLOCK".toList ∧ v.content ≠ "GENESIS".toList := by
    intro v hv
    simp only [sample_votes, List.mem_cons, List.mem_singleton, List.not_mem_nil,
      or_false] at hv
    rcases hv with h | h | h <;> subst h <;> decide
  have hbound : ∀ c, (sample_votes.countP fun v => decide (v.content = c)) < 2 ^ 31 :=
    fun c => Nat.lt_of_le_of_lt (List.countP_le_length _) (by decide)
  ⟨⟨⟨by decide, by decide⟩, by rfl, hfresh, by decide, hpay, hbound, by rfl, by decide⟩,
    tally_counts_votes sample_hasher (fun _ _ => 7) (fun _ _ => sample_rand) sample_disk
      sample_disk2 sample_after_votes.2 2 sample_controller sample_after_votes.1 sample_votes
      (by decide) (by decide) (by rfl) hfresh (by decide) hpay hbound (by rfl)⟩

/-! ### Runs that return, and the limit of the counters -/

theorem sha256_sample_zero (x : Str) :
    sha256 sample_hasher (x ++ ['0']) = "8000000000000000".toList := by
  unfold sha256 sample_hasher
  rw [List.getLast?_concat]
  decide

theorem sha256_sample_one (x : Str) :
    sha256 sample_hasher (x ++ ['1']) = "0000000000000000".toList := by
  unfold sha256 sample_hasher
  rw [List.getLast?_concat]
  decide

/-- With `sample_hasher` every new block is mined at difficulty 2 in one
iteration. -/
theorem sample_mine_returns (now : Int) (prev : Str) (pkt : SecurePacket) (fuel : Nat)
    (h : 1 ≤ fuel) :
    ∃ mined, (Block.new sample_hasher now prev pkt).mine_block sample_hasher fuel 2
      = .ok mined := by
  have h0 : (Block.new sample_hasher now prev pkt).block_hash = "8000000000000000".toList := by
    show sha256 sample_hasher (_ ++ Nat.toDigits 10 0) = _
    exact sha256_sample_zero _
  have h1 : ∀ b : Block, b.nonce = 1 →
      b.calculate_hash sample_hasher = "0000000000000000".toList := by
    intro b hb
    unfold Block.calculate_hash
    rw [hb]
    exact sha256_sample_one _
  obtain ⟨k, rfl⟩ : ∃ k, fuel = k + 1 := ⟨fuel - 1, by omega⟩
  refine ⟨{ Block.new sample_hasher now prev pkt with
      nonce := 1, block_hash := "0000000000000000".toList }, ?_⟩
  unfold Block.mine_block
  rw [if_neg (by decide)]
  unfold Block.mine_loop
  rw [h0]
  have hmiss : (("8000000000000000".toList.take (2 : Int).toNat
      != List.replicate (2 : Int).toNat '0') = true) := by decide
  rw [if_pos hmiss]
  have hn : ((Block.new sample_hasher now prev pkt).nonce + 1) % 2 ^ 64 = 1 := rfl
  simp only [hn]
  rw [h1 _ rfl]
  have hhit : ¬ (("0000000000000000".toList.take (2 : Int).toNat
      != List.replicate (2 : Int).toNat '0') = true) := by decide
  cases k with
  | zero =>
    unfold Block.mine_loop
    rw [if_neg hhit]
  | succ k =>
    unfold Block.mine_loop
    rw [if_neg hhit]

/-- When mining returns for every new block, a sequence of votes with new,
pairwise distinct ids and payloads shorter than the capacity is routed to the
end: every call returns. -/
theorem submit_all_returns (hasher : Str → Nat)
    (hmine : ∀ (now : Int) (prev : Str) (pkt : SecurePacket) (fuel : Nat), 1 ≤ fuel →
      ∃ mined, (Block.new hasher now prev pkt).mine_block hasher fuel 2 = .ok mined) :
    ∀ (votes : List VoteCall) (sc : ShardController) (disk : Disk),
      1 ≤ sc.shard_count → sc.shard_count < 2 ^ 31 →
      sc.shards.length = sc.shard_count.toNat →
      (∀ shard ∈ sc.shards, shard.chain ≠ [] ∧ shard.difficulty = 2 ∧
        ∀ b ∈ shard.chain, NUL ∈ b.packet.data) →
      (votes.map VoteCall.voter_id).Nodup →
      (∀ v ∈ votes, v.voter_id ∉ sc.voted_ids) →
      (∀ v ∈ votes, v.content.length ≤ PACKET_SIZE - 1 ∧ 1 ≤ v.fuel) →
      ∃ sc1 disk1, submit_all hasher votes (sc, disk) = .ok (sc1, disk1) := by
  intro votes
  induction votes with
  | nil => intro sc disk _ _ _ _ _ _ _; exact ⟨sc, disk, rfl⟩
  | cons v rest ih =>
    intro sc disk hc1 hc2 hlen hsh hnd hnew hpay
    obtain ⟨hvlen, hfuel⟩ := hpay v (by simp)
    have hlt : v.content.length < PACKET_SIZE := by unfold PACKET_SIZE at *; omega
    have hle : ¬ v.content.length > PACKET_SIZE := by omega
    have hpkt : SecurePacket.new v.content v.rand
        = .ok ⟨SecurePacket.fill v.content v.rand, SecurePacket.length_fill _ _ hle⟩ := by
      simp only [SecurePacket.new, hle, dite_false]
    have hdel := SecurePacket.new_delimited v.content v.rand _ hlt hpkt
    obtain ⟨hcnv, hnz, hidx⟩ := shard_index_eq v.voter_id sc.shard_count hc1 hc2
    have hin : shard_index v.voter_id sc.shard_count < sc.shards.length := by
      rw [hidx, hlen]
      exact Nat.mod_lt _ (by omega)
    have hs := List.getElem?_eq_getElem hin
    obtain ⟨hne, hdiff, hd⟩ := hsh _ (List.getElem?_mem hs)
    obtain ⟨tip, htip⟩ : ∃ tip, (sc.shards[shard_index v.voter_id sc.shard_count]).chain.getLast?
        = some tip := by
      cases hg : (sc.shards[shard_index v.voter_id sc.shard_count]).chain.getLast? with
      | none => exact absurd (List.getLast?_eq_none_iff.mp hg) hne
      | some tip => exact ⟨tip, rfl⟩
    obtain ⟨mined, hm⟩ := hmine v.now tip.block_hash
      ⟨SecurePacket.fill v.content v.rand, SecurePacket.length_fill _ _ hle⟩ v.fuel hfuel
    rw [← hdiff] at hm
    obtain ⟨disk2, hadd⟩ := Blockchain.add_block_returns hasher v.now v.fuel _ disk _ tip mined
      htip hd hdel hm
    have hroute := ShardController.route_packet_of_add_block hasher v.now v.fuel sc disk disk2
      v.voter_id _ _ _ (hnew v (by simp)) (by rw [hcnv]; exact hnz) hs hadd
    obtain ⟨_, hl⟩ := Block.mine_block_eq_ok hasher v.fuel _ mined _ hm
    obtain ⟨_, _, _, _, hpk, _⟩ := Block.mine_loop_spec hasher _ v.fuel _ mined hl
    rw [List.map_cons, List.nodup_cons] at hnd
    obtain ⟨hnotin, hnd'⟩ := hnd
    obtain ⟨sc1, disk1, hrest⟩ := ih
      ⟨sc.shards.set (shard_index v.voter_id sc.shard_count)
        { sc.shards[shard_index v.voter_id sc.shard_count] with
          chain := (sc.shards[shard_index v.voter_id sc.shard_count]).chain ++ [mined] },
        insert v.voter_id sc.voted_ids, sc.shard_count⟩
      disk2 hc1 hc2 (by simp only [List.length_set]; exact hlen)
      (by
        intro x hx
        rcases List.mem_or_eq_of_mem_set hx with hx | hx
        · exact hsh x hx
        · subst hx
          refine ⟨by simp, hdiff, fun b hb => ?_⟩
          rcases List.mem_append.mp hb with hb | hb
          · exact hd b hb
          · rw [List.mem_singleton] at hb
            rw [hb, hpk]
            exact hdel)
      hnd'
      (by
        intro w hw hmem
        simp only [Finset.mem_insert] at hmem
        rcases hmem with e | e
        · exact hnotin (e ▸ List.mem_map_of_mem VoteCall.voter_id hw)
        · exact hnew w (by simp [hw]) e)
      (fun w hw => hpay w (by simp [hw]))
    refine ⟨sc1, disk1, ?_⟩
    unfold submit_all
    have hsub : submit hasher (sc, disk) v = .ok
        (⟨sc.shards.set (shard_index v.voter_id sc.shard_count)
          { sc.shards[shard_index v.voter_id sc.shard_count] with
            chain := (sc.shards[shard_index v.voter_id sc.shard_count]).chain ++ [mined] },
          insert v.voter_id sc.voted_ids, sc.shard_count⟩, disk2) := by
      unfold submit generate_vote
      simp only [hpkt, hroute, bind, Except.bind, pure, Except.pure]
    simp only [hsub, bind, Except.bind]
    exact hrest

/-- A count of `2^31` or more in the map makes the tally undefined: the `int`
counter has overflowed. -/
theorem ShardController.get_tally_overflow (sc : ShardController) (t : List (Str × Nat))
    (c : Str) (ht : tally_shards sc.shards [] = .ok t) (hc : 2 ^ 31 ≤ tally_count t c) :
    sc.get_tally = .error .undefined := by
  unfold ShardController.get_tally
  simp only [ht, bind, Except.bind]
  have hall : ¬ (t.all fun kv => decide (kv.2 < 2 ^ 31)) = true := by
    rw [List.all_eq_true]
    intro hall
    unfold tally_count at hc
    cases hf : t.find? (fun kv => decide (kv.1 = c)) with
    | none => rw [hf] at hc; simp at hc
    | some kv =>
      rw [hf] at hc
      have := hall kv (List.mem_of_find?_eq_some hf)
      have hlt : kv.2 < 2 ^ 31 := of_decide_eq_true this
      simp only at hc
      omega
  rw [if_neg hall]

theorem mem_overflow_votes (v : VoteCall) (h : v ∈ overflow_votes) :
    ∃ k : Nat, k < 2 ^ 31 ∧ v = VoteCall.mk (Int.ofNat k) "A".toList sample_rand 8 1 := by
  unfold overflow_votes at h
  obtain ⟨k, hk, hv⟩ := List.mem_map.mp h
  exact ⟨k, List.mem_range.mp hk, hv.symm⟩

theorem sample_single_fresh : ∀ shard ∈ sample_single.shards, shard.is_fresh sample_hasher := by
  intro shard hs
  have h : shard = sample_chain := by
    simpa only [sample_single, List.mem_singleton] using hs
  exact ⟨7, sample_rand, by rw [h]; rfl⟩

/-- C11 fails as stated: on a fresh one-shard controller the `2^31` votes for
`A` from the voters `0` to `2^31 - 1` have pairwise distinct `int` ids and a
one-character payload, and all of them are routed; the counter of `A` would
then have to hold `2^31`, which no `int` does, so the increment for the last
vote overflows and the tally is not defined. -/
theorem tally_overflows :
    ShardController.new sample_hasher (fun _ _ => 7) (fun _ _ => sample_rand) sample_disk 1
      = .ok (sample_single, sample_saved sample_chain sample_disk) ∧
    (∀ shard ∈ sample_single.shards, shard.is_fresh sample_hasher) ∧
    (overflow_votes.map VoteCall.voter_id).Nodup ∧
    (∀ v ∈ overflow_votes, (0 ≤ v.voter_id ∧ v.voter_id < 2 ^ 31) ∧
      NUL ∉ v.content ∧ v.content.length ≤ PACKET_SIZE - 1 ∧
      v.content ≠ "GENESIS_BLOCK".toList ∧ v.content ≠ "GENESIS".toList) ∧
    (overflow_votes.countP fun v => decide (v.content = "A".toList)) = 2 ^ 31 ∧
    ∃ sc disk1, submit_all sample_hasher overflow_votes
        (sample_single, sample_saved sample_chain sample_disk) = .ok (sc, disk1) ∧
      sc.get_tally = .error .undefined := by
  have hnew : ShardController.new sample_hasher (fun _ _ => 7) (fun _ _ => sample_rand)
      sample_disk 1 = .ok (sample_single, sample_saved sample_chain sample_disk) := by rfl
  have hids : (overflow_votes.map VoteCall.voter_id).Nodup := by
    have hmap : overflow_votes.map VoteCall.voter_id
        = (List.range (2 ^ 31)).map Int.ofNat := by
      unfold overflow_votes
      rw [List.map_map]
      rfl
    rw [hmap]
    exact List.Nodup.map (fun a b h => Int.ofNat.inj h) (List.nodup_range _)
  have hpay : ∀ v ∈ overflow_votes, (0 ≤ v.voter_id ∧ v.voter_id < 2 ^ 31) ∧
      NUL ∉ v.content ∧ v.content.length ≤ PACKET_SIZE - 1 ∧
      v.content ≠ "GENESIS_BLOCK".toList ∧ v.content ≠ "GENESIS".toList := by
    intro v hv
    obtain ⟨k, hk, rfl⟩ := mem_overflow_votes v hv
    refine ⟨⟨Int.ofNat_nonneg k, ?_⟩, (by decide : NUL ∉ "A".toList),
      (by decide : "A".toList.length ≤ PACKET_SIZE - 1),
      (by decide : "A".toList ≠ "GENESIS_BLOCK".toList),
      (by decide : "A".toList ≠ "GENESIS".toList)⟩
    show (k : Int) < 2 ^ 31
    omega
  have hcount : (overflow_votes.countP fun v => decide (v.content = "A".toList)) = 2 ^ 31 := by
    have hall : (overflow_votes.countP fun v => decide (v.content = "A".toList))
        = overflow_votes.length := by
      rw [List.countP_eq_length]
      intro v hv
      obtain ⟨k, _, rfl⟩ := mem_overflow_votes v hv
      exact decide_eq_true rfl
    rw [hall]
    unfold overflow_votes
    rw [List.length_map, List.length_range]
  have hsh : ∀ shard ∈ sample_single.shards, shard.chain ≠ [] ∧ shard.difficulty = 2 ∧
      ∀ b ∈ shard.chain, NUL ∈ b.packet.data := by
    intro shard hs
    have h : shard = sample_chain := by
      simpa only [sample_single, List.mem_singleton] using hs
    subst h
    refine ⟨List.cons_ne_nil _ _, rfl, fun b hb => ?_⟩
    have hb' : b = genesis_block sample_hasher 7 sample_rand := by
      simpa only [sample_chain, List.mem_singleton] using hb
    rw [hb']
    exact (genesis_block_spec sample_hasher 7 sample_rand).2.2.2.2
  obtain ⟨sc, disk1, hrun⟩ := submit_all_returns sample_hasher sample_mine_returns
    overflow_votes sample_single (sample_saved sample_chain sample_disk)
    (by decide) (by decide) (by rfl) hsh hids
    (fun v _ => Finset.not_mem_empty _)
    (fun v hv => by
      obtain ⟨k, _, rfl⟩ := mem_overflow_votes v hv
      exact ⟨(by decide : "A".toList.length ≤ PACKET_SIZE - 1), (by decide : 1 ≤ 1)⟩)
  obtain ⟨t, ht, _, hcounts⟩ := tally_shards_after_votes sample_hasher sample_single sc
    (sample_saved sample_chain sample_disk) disk1 overflow_votes rfl sample_single_fresh hids
    (fun v hv => (hpay v hv).2) hrun
  refine ⟨hnew, sample_single_fresh, hids, hpay, hcount, sc, disk1, hrun, ?_⟩
  exact ShardController.get_tally_overflow sc t "A".toList ht (by rw [hcounts, hcount])

end VoteLedger
